import Mathlib

/-!
Verification development for the icon decomposition pipeline
(`processor.py`: class `IconProcessor`).

The pipeline operates on a fixed-size RGB image and a per-pixel integer
label map.  We embed images and label maps as total functions on pixel
coordinates together with explicit dimensions; pixel colour channels are
naturals in `[0, 255]`, layer buffers are real-valued (the source computes
in `float32`; real arithmetic is the exact idealisation of those
computations, and every comparison the theorems depend on is far from the
rounding error of `float32`).

Sorting: the source uses Python's `list.sort(key=..., reverse=True)`,
a stable sort.  A stable sort is uniquely determined by the key order and
the input order, so we embed it with `List.insertionSort` (stable, per
`Mathlib.Data.List.Sort`) on the corresponding "greater-or-equal on key"
relation, which produces exactly the same list.
-/

namespace IconProc

/-- An RGB image: dimensions plus a channel function (values 0..255).
Embeds the `self.original_image` numpy array of `processor.py`. -/
structure Img where
  h : Nat
  w : Nat
  px : Fin 3 → Nat → Nat → Nat

/-- A per-pixel label map (`pixel_clusters` in `processor.py`). -/
structure LMap where
  h : Nat
  w : Nat
  lab : Nat → Nat → Nat

/-- All pixel coordinates of an `h × w` canvas. -/
def grid (h w : Nat) : Finset (Nat × Nat) := Finset.range h ×ˢ Finset.range w

theorem mem_grid {h w : Nat} {p : Nat × Nat} :
    p ∈ grid h w ↔ p.1 < h ∧ p.2 < w := by
  simp [grid, Finset.mem_product]

/-- Number of pixels carrying label `l`: `np.sum(pixel_clusters == cluster_id)`. -/
def labelCount (m : LMap) (l : Nat) : Nat :=
  ((grid m.h m.w).filter (fun p => m.lab p.1 p.2 = l)).card

/-- The set of labels that occur in the map: `np.unique(pixel_clusters)`
(as a set). -/
def labelsPresent (m : LMap) : Finset Nat :=
  (grid m.h m.w).image (fun p => m.lab p.1 p.2)

/-- `np.unique(pixel_clusters)`: the occurring labels in ascending order. -/
def uniqueClusters (m : LMap) : List Nat :=
  (labelsPresent m).sort (· ≤ ·)

/-- The `cluster_sizes` list of `_generate_layers`: each present label
paired with its pixel count, in `np.unique` order. -/
def clusterSizes (m : LMap) : List (Nat × Nat) :=
  (uniqueClusters m).map (fun l => (l, labelCount m l))

/-- Descending-size order on `(label, size)` pairs, the key order of
`cluster_sizes.sort(key=lambda x: x[1], reverse=True)`. -/
def sizeGE (a b : Nat × Nat) : Prop := b.2 ≤ a.2

instance : DecidableRel sizeGE := fun a b => inferInstanceAs (Decidable (b.2 ≤ a.2))

instance : IsTotal (Nat × Nat) sizeGE := ⟨fun a b => Nat.le_total b.2 a.2⟩

instance : IsTrans (Nat × Nat) sizeGE := ⟨fun _ _ _ h h' => Nat.le_trans h' h⟩

/-- `cluster_sizes` after the stable descending sort by size. -/
def sortedClusterSizes (m : LMap) : List (Nat × Nat) :=
  (clusterSizes m).insertionSort sizeGE

/-- The two edge-treatment modes of `_generate_layers`. -/
inductive EdgeMode where
  | hard
  | soft
deriving DecidableEq

/-- Hard-mode alpha: the exact binary membership mask
(`mask = (pixel_clusters == cluster_id).astype(np.float32)`). -/
def hardAlpha (m : LMap) (l : Nat) (i j : Nat) : ℝ :=
  if m.lab i j = l then 1 else 0

/-- OpenCV `BORDER_REFLECT_101` index reflection (the default border of
`cv2.GaussianBlur`). -/
def reflect101 (n : Nat) (i : Int) : Int :=
  if i < 0 then -i else if (n : Int) ≤ i then 2 * n - 2 - i else i

/-- Membership of an (integer, possibly reflected) coordinate in label
`l`'s mask; out-of-bounds coordinates are outside every mask. -/
def membB (m : LMap) (l : Nat) (i j : Int) : Bool :=
  decide (0 ≤ i) && decide (i < (m.h : Int)) && decide (0 ≤ j) &&
    decide (j < (m.w : Int)) && decide (m.lab i.toNat j.toNat = l)

/-- Raw off-centre weight of `cv2.getGaussianKernel(3, 0.8)`:
`exp(-(1)²/(2·0.8²)) = exp(-25/32)` (the centre raw weight is `exp 0 = 1`). -/
noncomputable def gK : ℝ := Real.exp (-(25 / 32))

/-- Normalised 1-D Gaussian kernel weights for `cv2.GaussianBlur(mask, (3,3), 0.8)`. -/
noncomputable def kw : Fin 3 → ℝ := fun a => (if a = 1 then 1 else gK) / (1 + 2 * gK)

/-- Soft-mode alpha: the 3×3 Gaussian blur of the binary membership mask
(`cv2.GaussianBlur(mask, (3, 3), 0.8)`, reflect-101 border). -/
noncomputable def softAlpha (m : LMap) (l : Nat) (i j : Nat) : ℝ :=
  ∑ d : Fin 3 × Fin 3,
    kw d.1 * kw d.2 *
      (if membB m l (reflect101 m.h ((i : Int) + (d.1 : Nat) - 1))
          (reflect101 m.w ((j : Int) + (d.2 : Nat) - 1)) then 1 else 0)

/-- `cv2.dilate(mask, np.ones((3,3)), iterations=1)`: one-pixel 3×3 dilation
(the dilation border value leaves out-of-bounds neighbourhood cells inert). -/
def dilatedB (m : LMap) (l : Nat) (i j : Nat) : Bool :=
  decide (∃ d : Fin 3 × Fin 3,
    membB m l ((i : Int) + (d.1 : Nat) - 1) ((j : Int) + (d.2 : Nat) - 1))

/-- One emitted RGBA layer buffer.  `srcLabel` records the `cluster_id`
the layer was synthesised from (the loop variable of `_generate_layers`;
the spec's "source label id" metadata). -/
structure Layer where
  srcLabel : Nat
  h : Nat
  w : Nat
  rgb : Fin 3 → Nat → Nat → ℝ
  alpha : Nat → Nat → ℝ

/-- Layer synthesis for a single label, both branches of the
`edge_mode` conditional in `_generate_layers`. -/
noncomputable def makeLayer (img : Img) (m : LMap) (mode : EdgeMode) (l : Nat) : Layer :=
  match mode with
  | .hard =>
      { srcLabel := l, h := m.h, w := m.w
        rgb := fun c i j => (img.px c i j : ℝ) / 255 * hardAlpha m l i j
        alpha := fun i j => hardAlpha m l i j }
  | .soft =>
      { srcLabel := l, h := m.h, w := m.w
        rgb := fun c i j =>
          (img.px c i j : ℝ) / 255 * (if dilatedB m l i j then 1 else 0)
        alpha := fun i j => softAlpha m l i j }

/-- `_generate_layers`: one RGBA layer per unique label of the final pixel
label map, in order of descending membership pixel count (stable on ties). -/
noncomputable def generateLayers (img : Img) (m : LMap) (mode : EdgeMode) : List Layer :=
  (sortedClusterSizes m).map (fun s => makeLayer img m mode s.1)

/-- Visible pixel count of a layer: `np.sum(layer[:, :, 3] > 0.01)`
in `_calculate_statistics`. -/
noncomputable def visibleCount (L : Layer) : Nat :=
  letI := Classical.propDecidable
  ((grid L.h L.w).filter (fun p => (1 : ℝ) / 100 < L.alpha p.1 p.2)).card

/-- Python's `round` at a given value: round half to even on exact
rationals (every value the statistics code rounds is an exact dyadic
rational below `2^53`, so the `float` computation is exact and CPython's
correctly-rounded decimal rounding coincides with this). -/
def pyRoundInt (x : ℚ) : ℤ :=
  let f : ℤ := ⌊x⌋
  let r : ℚ := x - f
  if r < 1 / 2 then f
  else if 1 / 2 < r then f + 1
  else if Even f then f else f + 1

/-- `round(percentage, 2)`. -/
def pyRound2 (x : ℚ) : ℚ := (pyRoundInt (100 * x) : ℚ) / 100

/-- One entry of `stats['layer_sizes']`. -/
structure LayerStat where
  layerId : Nat
  pixelCount : Nat
  percentage : ℚ
  averageColorRgb : Fin 3 → ℤ

/-- The average-colour computation of `_calculate_statistics`:
mean of a channel over the visible pixels, times 255, truncated to int
(`astype(int)` truncates toward zero; the values are nonnegative, so this
is the floor); `[0, 0, 0]` when no pixel is visible. -/
noncomputable def avgColor (L : Layer) (c : Fin 3) : ℤ :=
  letI := Classical.propDecidable
  let vis := (grid L.h L.w).filter (fun p => (1 : ℝ) / 100 < L.alpha p.1 p.2)
  if vis.card = 0 then 0
  else ⌊(∑ p ∈ vis, L.rgb c p.1 p.2) / vis.card * 255⌋

/-- The statistics entry built for layer number `i`
(`percentage = (pixel_count / (1024 * 1024)) * 100`, with the canvas area
hard-coded to `1024 * 1024` in the source, then `round(·, 2)`). -/
noncomputable def layerStat (i : Nat) (L : Layer) : LayerStat :=
  { layerId := i
    pixelCount := visibleCount L
    percentage := pyRound2 ((visibleCount L : ℚ) / (1024 * 1024) * 100)
    averageColorRgb := fun c => avgColor L c }

/-- Descending order on reported pixel counts, the key order of
`stats['layer_sizes'].sort(key=lambda x: x['pixel_count'], reverse=True)`. -/
def statGE (a b : LayerStat) : Prop := b.pixelCount ≤ a.pixelCount

instance : DecidableRel statGE :=
  fun a b => inferInstanceAs (Decidable (b.pixelCount ≤ a.pixelCount))

instance : IsTotal LayerStat statGE := ⟨fun a b => Nat.le_total b.pixelCount a.pixelCount⟩

instance : IsTrans LayerStat statGE := ⟨fun _ _ _ h h' => Nat.le_trans h' h⟩

/-- `_calculate_statistics`: the `layer_sizes` list, one entry per layer,
finally re-sorted by descending pixel count (stable). -/
noncomputable def calculateStatistics (layers : List Layer) : List LayerStat :=
  ((layers.enum.map (fun iL => layerStat iL.1 iL.2))).insertionSort statGE

/-! ### Structural facts about `_generate_layers` -/

theorem makeLayer_srcLabel (img : Img) (m : LMap) (mode : EdgeMode) (l : Nat) :
    (makeLayer img m mode l).srcLabel = l := by
  cases mode <;> rfl

theorem sortedClusterSizes_perm (m : LMap) :
    (sortedClusterSizes m).Perm (clusterSizes m) :=
  List.perm_insertionSort _ _

theorem map_fst_clusterSizes (m : LMap) :
    (clusterSizes m).map Prod.fst = uniqueClusters m := by
  simp [clusterSizes, List.map_map, Function.comp_def]

theorem nodup_sorted_labels (m : LMap) :
    ((sortedClusterSizes m).map Prod.fst).Nodup := by
  have hperm := (sortedClusterSizes_perm m).map Prod.fst
  rw [hperm.nodup_iff, map_fst_clusterSizes]
  exact (labelsPresent m).sort_nodup _

theorem mem_sorted_labels (m : LMap) {i j : Nat} (hi : i < m.h) (hj : j < m.w) :
    m.lab i j ∈ (sortedClusterSizes m).map Prod.fst := by
  have hperm := (sortedClusterSizes_perm m).map Prod.fst
  rw [hperm.mem_iff, map_fst_clusterSizes, uniqueClusters, Finset.mem_sort,
    labelsPresent, Finset.mem_image]
  exact ⟨(i, j), mem_grid.mpr ⟨hi, hj⟩, rfl⟩

theorem sum_indicator_zero {x : Nat} : ∀ (l : List Nat), x ∉ l →
    (l.map (fun a => if x = a then (1 : ℝ) else 0)).sum = 0 := by
  intro l
  induction l with
  | nil => intro _; simp
  | cons a t ih =>
      intro hx
      have hxa : x ≠ a := fun h => hx (h ▸ List.mem_cons_self a t)
      have hxt : x ∉ t := fun h => hx (List.mem_cons_of_mem a h)
      simp [hxa, ih hxt]

theorem sum_indicator_one {x : Nat} : ∀ (l : List Nat), l.Nodup → x ∈ l →
    (l.map (fun a => if x = a then (1 : ℝ) else 0)).sum = 1 := by
  intro l
  induction l with
  | nil => intro _ h; cases h
  | cons a t ih =>
      intro hnd hx
      rcases List.mem_cons.mp hx with h | h
      · subst h
        have hxt : x ∉ t := (List.nodup_cons.mp hnd).1
        simp [sum_indicator_zero t hxt]
      · have hxa : x ≠ a := by
          intro he
          exact (List.nodup_cons.mp hnd).1 (he ▸ h)
        simp [hxa, ih (List.nodup_cons.mp hnd).2 h]

/-- C1: in hard edge mode every emitted alpha value is 0 or 1 and the
alphas of the layer list sum to exactly 1 at every pixel of the canvas:
the layer masks partition the image. -/
theorem hard_layers_partition (img : Img) (m : LMap) (i j : Nat)
    (hi : i < m.h) (hj : j < m.w) :
    ((generateLayers img m .hard).map (fun L => L.alpha i j)).sum = 1 ∧
      ∀ L ∈ generateLayers img m .hard, L.alpha i j = 0 ∨ L.alpha i j = 1 := by
  constructor
  · have hmap : (generateLayers img m .hard).map (fun L => L.alpha i j)
        = ((sortedClusterSizes m).map Prod.fst).map
            (fun a => if m.lab i j = a then (1 : ℝ) else 0) := by
      simp only [generateLayers, List.map_map]
      rfl
    rw [hmap]
    exact sum_indicator_one _ (nodup_sorted_labels m) (mem_sorted_labels m hi hj)
  · intro L hL
    rcases List.mem_map.mp hL with ⟨s, _, rfl⟩
    show hardAlpha m s.1 i j = 0 ∨ hardAlpha m s.1 i j = 1
    unfold hardAlpha
    split
    · exact Or.inr rfl
    · exact Or.inl rfl

/-- Witness for C1 at a concrete 1×1 input. -/
theorem hard_layers_partition_witness :
    ((0 < 1 ∧ 0 < 1) ∧
      (((generateLayers ⟨1, 1, fun _ _ _ => 7⟩ ⟨1, 1, fun _ _ => 0⟩ .hard).map
          (fun L => L.alpha 0 0)).sum = 1 ∧
        ∀ L ∈ generateLayers ⟨1, 1, fun _ _ _ => 7⟩ ⟨1, 1, fun _ _ => 0⟩ .hard,
          L.alpha 0 0 = 0 ∨ L.alpha 0 0 = 1)) :=
  ⟨⟨Nat.zero_lt_one, Nat.zero_lt_one⟩,
    hard_layers_partition ⟨1, 1, fun _ _ _ => 7⟩ ⟨1, 1, fun _ _ => 0⟩ 0 0
      Nat.zero_lt_one Nat.zero_lt_one⟩

/-! ### Layers are emitted only for labels present in the final map (C10) -/

theorem length_generateLayers (img : Img) (m : LMap) (mode : EdgeMode) :
    (generateLayers img m mode).length = (labelsPresent m).card := by
  simp [generateLayers, sortedClusterSizes, List.length_insertionSort,
    clusterSizes, uniqueClusters, Finset.length_sort]

theorem labelCount_pos_of_present (m : LMap) {l : Nat} (h : l ∈ labelsPresent m) :
    1 ≤ labelCount m l := by
  rcases Finset.mem_image.mp h with ⟨p, hp, hl⟩
  have : p ∈ (grid m.h m.w).filter (fun q => m.lab q.1 q.2 = l) :=
    Finset.mem_filter.mpr ⟨hp, hl⟩
  exact Finset.card_pos.mpr ⟨p, this⟩

/-- C10: `_generate_layers` synthesises one layer per label actually
present in the final pixel label map — every emitted layer's source label
has at least one member pixel, a label with zero pixels yields no layer,
and hence the emitted layer count (= number of present labels) can fall
short of the requested layer count, as on a uniform map with 3 requested
layers. -/
theorem layers_match_present_labels (img : Img) (m : LMap) (mode : EdgeMode) :
    ((generateLayers img m mode).length = (labelsPresent m).card ∧
      (∀ L ∈ generateLayers img m mode,
        L.srcLabel ∈ labelsPresent m ∧ 1 ≤ labelCount m L.srcLabel)) ∧
    (generateLayers ⟨2, 2, fun _ _ _ => 7⟩ ⟨2, 2, fun _ _ => 0⟩ mode).length < 3 := by
  refine ⟨⟨length_generateLayers img m mode, ?_⟩, ?_⟩
  · intro L hL
    rcases List.mem_map.mp hL with ⟨s, hs, rfl⟩
    rw [makeLayer_srcLabel]
    have hmem : s.1 ∈ (sortedClusterSizes m).map Prod.fst :=
      List.mem_map.mpr ⟨s, hs, rfl⟩
    have : s.1 ∈ labelsPresent m := by
      have hperm := (sortedClusterSizes_perm m).map Prod.fst
      rw [hperm.mem_iff, map_fst_clusterSizes, uniqueClusters, Finset.mem_sort] at hmem
      exact hmem
    exact ⟨this, labelCount_pos_of_present m this⟩
  · rw [length_generateLayers]
    have : labelsPresent ⟨2, 2, fun _ _ => 0⟩ = {0} := by decide
    rw [this]
    decide

/-! ### The Spatial Splitter: `_apply_distance_threshold`

The connected-component labelling is a library call
(`scipy.ndimage.label`), so the embedding takes it as a function
parameter together with its contract `CCSpec`: component ids `1..n`
exactly cover the mask inside the grid (0 outside it) and every
component is non-empty; `scipy.ndimage.label` guarantees this. -/

/-- Type of a connected-component labelling routine: canvas dimensions and
a mask in, per-pixel component-id function and component count out. -/
def CC : Type := Nat → Nat → (Nat → Nat → Bool) → ((Nat → Nat → Nat) × Nat)

/-- Contract of `scipy.ndimage.label` output `(f, n)` on `mask`. -/
def CCSpec (h w : Nat) (mask : Nat → Nat → Bool) (f : Nat → Nat → Nat) (n : Nat) : Prop :=
  (∀ p ∈ grid h w, (mask p.1 p.2 = true ↔ 1 ≤ f p.1 p.2 ∧ f p.1 p.2 ≤ n)) ∧
    (∀ k ∈ Finset.Icc 1 n, ∃ p ∈ grid h w, f p.1 p.2 = k ∧ mask p.1 p.2 = true)

instance (h w : Nat) (mask : Nat → Nat → Bool) (f : Nat → Nat → Nat) (n : Nat) :
    Decidable (CCSpec h w mask f n) := by
  unfold CCSpec
  infer_instance

/-- The `distance_threshold` parameter: `'off'`, `'auto'`, or a number. -/
inductive DistThreshold where
  | off
  | auto
  | value (v : ℚ)
deriving DecidableEq

/-- `mask = (pixel_clusters == cluster_id)`. -/
def maskOf (pc : LMap) (c : Nat) : Nat → Nat → Bool :=
  fun i j => decide (pc.lab i j = c)

/-- `np.sum(labeled == i)`: size of component `k`. -/
def compSize (h w : Nat) (f : Nat → Nat → Nat) (k : Nat) : Nat :=
  ((grid h w).filter (fun p => f p.1 p.2 = k)).card

/-- The `component_sizes` list `[(i, size_i) for i in 1..n]`. -/
def compSizes (h w : Nat) (f : Nat → Nat → Nat) (n : Nat) : List (Nat × Nat) :=
  (List.range' 1 n).map (fun k => (k, compSize h w f k))

/-- `result[labeled == comp_id] = new_label`. -/
def assignComp (f : Nat → Nat → Nat) (k newLab : Nat) (r : Nat → Nat → Nat) :
    Nat → Nat → Nat :=
  fun i j => if f i j = k then newLab else r i j

/-- A sequence of component reassignments, first to last. -/
def assignMany (f : Nat → Nat → Nat) (comps : List (Nat × Nat))
    (r : Nat → Nat → Nat) : Nat → Nat → Nat :=
  comps.foldl (fun r kn => assignComp f kn.1 kn.2 r) r

/-- Component id at position `t` of a size-sorted component list. -/
def idAt (sorted : List (Nat × Nat)) (t : Nat) : Nat := (sorted.getD t (0, 0)).1

/-- `component_sizes` after `sort(key=lambda x: x[1], reverse=True)`:
stable descending sort by size. -/
def sortedComps (h w : Nat) (f : Nat → Nat → Nat) (n : Nat) : List (Nat × Nat) :=
  (compSizes h w f n).insertionSort sizeGE

/-- The `num_features > max_regions_per_color` branch of
`_apply_distance_threshold`: the components ranked `1 .. rtc-1` receive
the fresh labels `next_label, next_label+1, ...`; all remaining
components are merged into `next_label - 1` as it stands after those
allocations. -/
def overLimitStep (h w : Nat) (f : Nat → Nat → Nat) (n M : Nat)
    (st : (Nat → Nat → Nat) × Nat) : (Nat → Nat → Nat) × Nat :=
  let sorted := sortedComps h w f n
  let rtc := min n M
  let comps1 := (List.range' 1 (rtc - 1)).map (fun t => (idAt sorted t, st.2 + t - 1))
  let nl1 := st.2 + (rtc - 1)
  let comps2 := (List.range' rtc (n - rtc)).map (fun t => (idAt sorted t, nl1 - 1))
  (assignMany f comps2 (assignMany f comps1 st.1), nl1)

/-- The `significant_components` list of the `'auto'` branch: components
whose size exceeds 5% of the cluster's total pixel count.  The test
`size > mask.sum() * 0.05` is embedded as `total < 20 * size` (exact for
the integer sizes involved, which are far below the float64 error
threshold). -/
def sigComps (h w : Nat) (f : Nat → Nat → Nat) (n total : Nat) : List (Nat × Nat) :=
  (sortedComps h w f n).filter (fun s => decide (total < 20 * s.2))

/-- The `'auto'` branch of `_apply_distance_threshold` (component count
within the limit): split off the significant components ranked
`1 .. min(len(significant), M) - 1` to fresh labels. -/
def autoStep (h w : Nat) (f : Nat → Nat → Nat) (n M total : Nat)
    (st : (Nat → Nat → Nat) × Nat) : (Nat → Nat → Nat) × Nat :=
  let sig := sigComps h w f n total
  let m2 := min sig.length M
  let comps := (List.range' 1 (m2 - 1)).map (fun t => (idAt sig t, st.2 + t - 1))
  (assignMany f comps st.1, st.2 + (m2 - 1))

/-- One iteration of the `for cluster_id in range(n_layers)` loop of
`_apply_distance_threshold`; the state is `(result, next_label)`. -/
def splitClusterStep (cc : CC) (pc : LMap) (thr : DistThreshold) (M : Nat)
    (st : (Nat → Nat → Nat) × Nat) (c : Nat) : (Nat → Nat → Nat) × Nat :=
  let fn := cc pc.h pc.w (maskOf pc c)
  if 1 < fn.2 then
    if M < fn.2 then overLimitStep pc.h pc.w fn.1 fn.2 M st
    else if thr = DistThreshold.auto then
      autoStep pc.h pc.w fn.1 fn.2 M (labelCount pc c) st
    else st
  else st

/-- The splitter state after the first `c` clusters have been processed. -/
def splitState (cc : CC) (pc : LMap) (thr : DistThreshold) (nLayers M c : Nat) :
    (Nat → Nat → Nat) × Nat :=
  (List.range c).foldl (splitClusterStep cc pc thr M) (pc.lab, nLayers)

/-- `_apply_distance_threshold`: the final relabelled map. -/
def applyDistanceThreshold (cc : CC) (pc : LMap) (thr : DistThreshold)
    (nLayers M : Nat) : LMap :=
  { h := pc.h, w := pc.w
    lab := (splitState cc pc thr nLayers M nLayers).1 }

/-! #### Reassignment-list evaluation lemmas -/

theorem assignMany_ne (f : Nat → Nat → Nat) (i j : Nat) :
    ∀ (comps : List (Nat × Nat)) (r : Nat → Nat → Nat),
      (∀ kn ∈ comps, f i j ≠ kn.1) → assignMany f comps r i j = r i j := by
  intro comps
  induction comps with
  | nil => intro r _; rfl
  | cons kn rest ih =>
      intro r hne
      have h1 : f i j ≠ kn.1 := hne kn (List.mem_cons_self _ _)
      show assignMany f rest (assignComp f kn.1 kn.2 r) i j = r i j
      rw [ih _ (fun b hb => hne b (List.mem_cons_of_mem _ hb))]
      simp [assignComp, h1]

theorem assignMany_mem (f : Nat → Nat → Nat) (i j : Nat) :
    ∀ (comps : List (Nat × Nat)) (r : Nat → Nat → Nat) (kn : Nat × Nat),
      (comps.map Prod.fst).Nodup → kn ∈ comps → f i j = kn.1 →
      assignMany f comps r i j = kn.2 := by
  intro comps
  induction comps with
  | nil => intro r kn _ hm; cases hm
  | cons a rest ih =>
      intro r kn hnd hmem hf
      have hmap : ((a :: rest).map Prod.fst) = a.1 :: rest.map Prod.fst := rfl
      rw [hmap, List.nodup_cons] at hnd
      rcases List.mem_cons.mp hmem with h | h
      · subst h
        have hnotin : ∀ b ∈ rest, f i j ≠ b.1 := by
          intro b hb hEq
          exact hnd.1 (List.mem_map.mpr ⟨b, hb, (hf ▸ hEq : kn.1 = b.1).symm⟩)
        show assignMany f rest (assignComp f kn.1 kn.2 r) i j = kn.2
        rw [assignMany_ne f i j rest _ hnotin]
        simp [assignComp, hf]
      · exact ih _ kn hnd.2 h hf

theorem assignMany_cases (f : Nat → Nat → Nat) (i j : Nat) :
    ∀ (comps : List (Nat × Nat)) (r : Nat → Nat → Nat),
      assignMany f comps r i j = r i j ∨
        ∃ kn ∈ comps, assignMany f comps r i j = kn.2 := by
  intro comps
  induction comps with
  | nil => intro r; exact Or.inl rfl
  | cons a rest ih =>
      intro r
      have hstep : assignMany f (a :: rest) r = assignMany f rest (assignComp f a.1 a.2 r) := rfl
      rcases ih (assignComp f a.1 a.2 r) with h | ⟨kn, hkn, h⟩
      · by_cases hfa : f i j = a.1
        · refine Or.inr ⟨a, List.mem_cons_self _ _, ?_⟩
          rw [hstep, h]
          simp [assignComp, hfa]
        · refine Or.inl ?_
          rw [hstep, h]
          simp [assignComp, hfa]
      · exact Or.inr ⟨kn, List.mem_cons_of_mem _ hkn, by rw [hstep, h]⟩

/-! #### Facts about the sorted component list -/

theorem sortedComps_perm (h w : Nat) (f : Nat → Nat → Nat) (n : Nat) :
    (sortedComps h w f n).Perm (compSizes h w f n) :=
  List.perm_insertionSort _ _

theorem map_fst_compSizes (h w : Nat) (f : Nat → Nat → Nat) (n : Nat) :
    (compSizes h w f n).map Prod.fst = List.range' 1 n := by
  simp [compSizes, List.map_map, Function.comp_def]

theorem length_sortedComps (h w : Nat) (f : Nat → Nat → Nat) (n : Nat) :
    (sortedComps h w f n).length = n := by
  have := (sortedComps_perm h w f n).length_eq
  rw [this]
  simp [compSizes]

theorem nodup_sortedComps_fst (h w : Nat) (f : Nat → Nat → Nat) (n : Nat) :
    ((sortedComps h w f n).map Prod.fst).Nodup := by
  have hperm := (sortedComps_perm h w f n).map Prod.fst
  rw [hperm.nodup_iff, map_fst_compSizes]
  exact List.nodup_range' 1 n

theorem mem_sortedComps_bounds (h w : Nat) (f : Nat → Nat → Nat) (n : Nat)
    {s : Nat × Nat} (hs : s ∈ sortedComps h w f n) : 1 ≤ s.1 ∧ s.1 ≤ n := by
  have hmem : s ∈ compSizes h w f n := (sortedComps_perm h w f n).subset hs
  rcases List.mem_map.mp hmem with ⟨k, hk, rfl⟩
  have := List.mem_range'_1.mp hk
  exact ⟨this.1, by omega⟩

theorem getD_mem {l : List (Nat × Nat)} {t : Nat} (ht : t < l.length) :
    l.getD t (0, 0) ∈ l := by
  rw [List.getD_eq_getElem?_getD, List.getElem?_eq_getElem ht]
  exact List.getElem_mem ht

theorem idAt_eq_get (l : List (Nat × Nat)) (t : Nat) (ht : t < l.length) :
    idAt l t = (l.get ⟨t, ht⟩).1 := by
  rw [idAt, List.getD_eq_getElem?_getD, List.getElem?_eq_getElem ht]
  rfl

theorem idAt_inj (h w : Nat) (f : Nat → Nat → Nat) (n : Nat) {t t' : Nat}
    (ht : t < n) (ht' : t' < n)
    (hEq : idAt (sortedComps h w f n) t = idAt (sortedComps h w f n) t') :
    t = t' := by
  have hlen := length_sortedComps h w f n
  have h1 : t < (sortedComps h w f n).length := by omega
  have h2 : t' < (sortedComps h w f n).length := by omega
  rw [idAt_eq_get _ _ h1, idAt_eq_get _ _ h2] at hEq
  have hnd := nodup_sortedComps_fst h w f n
  have hm1 : ((sortedComps h w f n).map Prod.fst).get ⟨t, by simpa using h1⟩
      = ((sortedComps h w f n).get ⟨t, h1⟩).1 := by
    simp [List.get_eq_getElem]
  have hm2 : ((sortedComps h w f n).map Prod.fst).get ⟨t', by simpa using h2⟩
      = ((sortedComps h w f n).get ⟨t', h2⟩).1 := by
    simp [List.get_eq_getElem]
  have hfin : (⟨t, by simpa using h1⟩ : Fin ((sortedComps h w f n).map Prod.fst).length)
      = ⟨t', by simpa using h2⟩ := by
    rw [← hnd.get_inj_iff, hm1, hm2]
    exact hEq
  exact congrArg Fin.val hfin

theorem idAt_mem_sortedComps (h w : Nat) (f : Nat → Nat → Nat) (n : Nat)
    {t : Nat} (ht : t < n) :
    1 ≤ idAt (sortedComps h w f n) t ∧ idAt (sortedComps h w f n) t ≤ n := by
  have h1 : t < (sortedComps h w f n).length := by
    rw [length_sortedComps]; exact ht
  exact mem_sortedComps_bounds h w f n (getD_mem h1)

/-! #### Evaluation of the over-limit branch -/

theorem overLimitStep_unfold (h w : Nat) (f : Nat → Nat → Nat) (n M : Nat)
    (st : (Nat → Nat → Nat) × Nat) :
    overLimitStep h w f n M st =
      (assignMany f ((List.range' (min n M) (n - min n M)).map
          (fun t => (idAt (sortedComps h w f n) t, st.2 + (min n M - 1) - 1)))
        (assignMany f ((List.range' 1 (min n M - 1)).map
          (fun t => (idAt (sortedComps h w f n) t, st.2 + t - 1))) st.1),
       st.2 + (min n M - 1)) := rfl

theorem overLimitStep_frame (h w : Nat) (f : Nat → Nat → Nat) (n M : Nat)
    (st : (Nat → Nat → Nat) × Nat) (i j : Nat)
    (hf : ∀ k, 1 ≤ k → k ≤ n → f i j ≠ k) :
    (overLimitStep h w f n M st).1 i j = st.1 i j := by
  rw [overLimitStep_unfold]
  dsimp only
  have hne2 : ∀ kn ∈ (List.range' (min n M) (n - min n M)).map
      (fun t => (idAt (sortedComps h w f n) t, st.2 + (min n M - 1) - 1)),
      f i j ≠ kn.1 := by
    intro kn hkn
    rcases List.mem_map.mp hkn with ⟨t, ht, rfl⟩
    have hb := List.mem_range'_1.mp ht
    have htn : t < n := by omega
    have hid := idAt_mem_sortedComps h w f n htn
    exact hf _ hid.1 hid.2
  have hne1 : ∀ kn ∈ (List.range' 1 (min n M - 1)).map
      (fun t => (idAt (sortedComps h w f n) t, st.2 + t - 1)), f i j ≠ kn.1 := by
    intro kn hkn
    rcases List.mem_map.mp hkn with ⟨t, ht, rfl⟩
    have hb := List.mem_range'_1.mp ht
    have htn : t < n := by omega
    have hid := idAt_mem_sortedComps h w f n htn
    exact hf _ hid.1 hid.2
  rw [assignMany_ne f i j _ _ hne2, assignMany_ne f i j _ _ hne1]

theorem overLimitStep_rank0 (h w : Nat) (f : Nat → Nat → Nat) (n M : Nat)
    (st : (Nat → Nat → Nat) × Nat) (i j : Nat) (hM : 1 ≤ M) (hMn : M < n)
    (h0 : f i j = idAt (sortedComps h w f n) 0) :
    (overLimitStep h w f n M st).1 i j = st.1 i j := by
  rw [overLimitStep_unfold]
  dsimp only
  have hne : ∀ (t : Nat), 1 ≤ t → t < n → f i j ≠ idAt (sortedComps h w f n) t := by
    intro t ht1 htn hEq
    have h0n : 0 < n := by omega
    have := idAt_inj h w f n h0n htn (h0 ▸ hEq)
    omega
  have hne2 : ∀ kn ∈ (List.range' (min n M) (n - min n M)).map
      (fun t => (idAt (sortedComps h w f n) t, st.2 + (min n M - 1) - 1)),
      f i j ≠ kn.1 := by
    intro kn hkn
    rcases List.mem_map.mp hkn with ⟨t, ht, rfl⟩
    have hb := List.mem_range'_1.mp ht
    exact hne t (by omega) (by omega)
  have hne1 : ∀ kn ∈ (List.range' 1 (min n M - 1)).map
      (fun t => (idAt (sortedComps h w f n) t, st.2 + t - 1)), f i j ≠ kn.1 := by
    intro kn hkn
    rcases List.mem_map.mp hkn with ⟨t, ht, rfl⟩
    have hb := List.mem_range'_1.mp ht
    exact hne t (by omega) (by omega)
  rw [assignMany_ne f i j _ _ hne2, assignMany_ne f i j _ _ hne1]

theorem comps_map_fst_nodup (h w : Nat) (f : Nat → Nat → Nat) (n : Nat)
    (s len : Nat) (g : Nat → Nat) (hbound : s + len ≤ n) :
    (((List.range' s len).map
        (fun t => (idAt (sortedComps h w f n) t, g t))).map Prod.fst).Nodup := by
  rw [List.map_map]
  have : (Prod.fst ∘ fun t => (idAt (sortedComps h w f n) t, g t))
      = fun t => idAt (sortedComps h w f n) t := rfl
  rw [this]
  refine List.Nodup.map_on ?_ (List.nodup_range' s len)
  intro x hx y hy hxy
  have hbx := List.mem_range'_1.mp hx
  have hby := List.mem_range'_1.mp hy
  exact idAt_inj h w f n (by omega) (by omega) hxy

theorem overLimitStep_mid (h w : Nat) (f : Nat → Nat → Nat) (n M : Nat)
    (st : (Nat → Nat → Nat) × Nat) (i j t : Nat) (hMn : M < n)
    (h1 : 1 ≤ t) (h2 : t < M) (hft : f i j = idAt (sortedComps h w f n) t) :
    (overLimitStep h w f n M st).1 i j = st.2 + t - 1 := by
  rw [overLimitStep_unfold]
  dsimp only
  have hmin : min n M = M := by omega
  rw [hmin]
  have hne2 : ∀ kn ∈ (List.range' M (n - M)).map
      (fun t => (idAt (sortedComps h w f n) t, st.2 + (M - 1) - 1)),
      f i j ≠ kn.1 := by
    intro kn hkn
    rcases List.mem_map.mp hkn with ⟨u, hu, rfl⟩
    have hb := List.mem_range'_1.mp hu
    intro hEq
    have := idAt_inj h w f n (by omega) (by omega) (hft ▸ hEq)
    omega
  rw [assignMany_ne f i j _ _ hne2]
  have hmem : (idAt (sortedComps h w f n) t, st.2 + t - 1)
      ∈ (List.range' 1 (M - 1)).map
        (fun u => (idAt (sortedComps h w f n) u, st.2 + u - 1)) :=
    List.mem_map.mpr ⟨t, List.mem_range'_1.mpr ⟨h1, by omega⟩, rfl⟩
  exact assignMany_mem f i j _ _ _
    (comps_map_fst_nodup h w f n 1 (M - 1) _ (by omega)) hmem hft

theorem overLimitStep_tail (h w : Nat) (f : Nat → Nat → Nat) (n M : Nat)
    (st : (Nat → Nat → Nat) × Nat) (i j t : Nat) (hMn : M < n)
    (h3 : M ≤ t) (h4 : t < n) (hft : f i j = idAt (sortedComps h w f n) t) :
    (overLimitStep h w f n M st).1 i j = st.2 + (M - 1) - 1 := by
  rw [overLimitStep_unfold]
  dsimp only
  have hmin : min n M = M := by omega
  rw [hmin]
  have hmem : (idAt (sortedComps h w f n) t, st.2 + (M - 1) - 1)
      ∈ (List.range' M (n - M)).map
        (fun u => (idAt (sortedComps h w f n) u, st.2 + (M - 1) - 1)) :=
    List.mem_map.mpr ⟨t, List.mem_range'_1.mpr ⟨h3, by omega⟩, rfl⟩
  exact assignMany_mem f i j _ _ _
    (comps_map_fst_nodup h w f n M (n - M) _ (by omega)) hmem hft

theorem overLimitStep_val (h w : Nat) (f : Nat → Nat → Nat) (n M : Nat)
    (st : (Nat → Nat → Nat) × Nat) (i j : Nat) (hM : 2 ≤ M) (hMn : M < n) :
    (overLimitStep h w f n M st).1 i j = st.1 i j ∨
      (st.2 ≤ (overLimitStep h w f n M st).1 i j ∧
        (overLimitStep h w f n M st).1 i j < st.2 + (M - 1)) := by
  rw [overLimitStep_unfold]
  dsimp only
  have hmin : min n M = M := by omega
  rw [hmin]
  rcases assignMany_cases f i j ((List.range' M (n - M)).map
      (fun t => (idAt (sortedComps h w f n) t, st.2 + (M - 1) - 1)))
      (assignMany f ((List.range' 1 (M - 1)).map
        (fun t => (idAt (sortedComps h w f n) t, st.2 + t - 1))) st.1)
    with hv | ⟨kn, hkn, hv⟩
  · rw [hv]
    rcases assignMany_cases f i j ((List.range' 1 (M - 1)).map
        (fun t => (idAt (sortedComps h w f n) t, st.2 + t - 1))) st.1
      with hv2 | ⟨kn2, hkn2, hv2⟩
    · exact Or.inl hv2
    · rcases List.mem_map.mp hkn2 with ⟨u, hu, rfl⟩
      have hb := List.mem_range'_1.mp hu
      rw [hv2]
      exact Or.inr ⟨by omega, by omega⟩
  · rcases List.mem_map.mp hkn with ⟨u, hu, rfl⟩
    rw [hv]
    exact Or.inr ⟨by omega, by omega⟩

/-! #### Evaluation of the `'auto'` branch -/

theorem autoStep_unfold (h w : Nat) (f : Nat → Nat → Nat) (n M total : Nat)
    (st : (Nat → Nat → Nat) × Nat) :
    autoStep h w f n M total st =
      (assignMany f ((List.range' 1 (min (sigComps h w f n total).length M - 1)).map
          (fun t => (idAt (sigComps h w f n total) t, st.2 + t - 1))) st.1,
       st.2 + (min (sigComps h w f n total).length M - 1)) := rfl

theorem sig_getD_bounds (h w : Nat) (f : Nat → Nat → Nat) (n total : Nat)
    {t : Nat} (ht : t < (sigComps h w f n total).length) :
    1 ≤ idAt (sigComps h w f n total) t ∧ idAt (sigComps h w f n total) t ≤ n := by
  have hmem : (sigComps h w f n total).getD t (0, 0) ∈ sigComps h w f n total :=
    getD_mem ht
  have : (sigComps h w f n total).getD t (0, 0) ∈ sortedComps h w f n :=
    List.mem_of_mem_filter hmem
  exact mem_sortedComps_bounds h w f n this

theorem autoStep_frame (h w : Nat) (f : Nat → Nat → Nat) (n M total : Nat)
    (st : (Nat → Nat → Nat) × Nat) (i j : Nat)
    (hf : ∀ k, 1 ≤ k → k ≤ n → f i j ≠ k) :
    (autoStep h w f n M total st).1 i j = st.1 i j := by
  rw [autoStep_unfold]
  dsimp only
  refine assignMany_ne f i j _ _ ?_
  intro kn hkn
  rcases List.mem_map.mp hkn with ⟨t, ht, rfl⟩
  have hb := List.mem_range'_1.mp ht
  have htlen : t < (sigComps h w f n total).length := by omega
  have hid := sig_getD_bounds h w f n total htlen
  exact hf _ hid.1 hid.2

theorem autoStep_val (h w : Nat) (f : Nat → Nat → Nat) (n M total : Nat)
    (st : (Nat → Nat → Nat) × Nat) (i j : Nat) :
    (autoStep h w f n M total st).1 i j = st.1 i j ∨
      (st.2 ≤ (autoStep h w f n M total st).1 i j ∧
        (autoStep h w f n M total st).1 i j < st.2 + (M - 1)) := by
  rw [autoStep_unfold]
  dsimp only
  rcases assignMany_cases f i j
      ((List.range' 1 (min (sigComps h w f n total).length M - 1)).map
        (fun t => (idAt (sigComps h w f n total) t, st.2 + t - 1))) st.1
    with hv | ⟨kn, hkn, hv⟩
  · exact Or.inl hv
  · rcases List.mem_map.mp hkn with ⟨u, hu, rfl⟩
    have hb := List.mem_range'_1.mp hu
    rw [hv]
    exact Or.inr ⟨by omega, by omega⟩

theorem idAt_sig_ne_head (h w : Nat) (f : Nat → Nat → Nat) (n total : Nat)
    (u : Nat) (hu : 1 ≤ u) (hulen : u < (sigComps h w f n total).length) :
    idAt (sigComps h w f n total) u ≠ idAt (sortedComps h w f n) 0 := by
  cases hs : sortedComps h w f n with
  | nil =>
      exfalso
      have : sigComps h w f n total = [] := by
        rw [sigComps, hs]
        rfl
      rw [this] at hulen
      simp at hulen
  | cons s0 rest =>
      have hnd := nodup_sortedComps_fst h w f n
      rw [hs] at hnd
      have hnd' : (s0.1 :: rest.map Prod.fst).Nodup := hnd
      show idAt (sigComps h w f n total) u ≠ s0.1
      have hsig : sigComps h w f n total
          = (s0 :: rest).filter (fun s => decide (total < 20 * s.2)) := by
        rw [sigComps, hs]
      by_cases hp : (total < 20 * s0.2)
      · have hsig2 : sigComps h w f n total
            = s0 :: rest.filter (fun s => decide (total < 20 * s.2)) := by
          rw [hsig, List.filter_cons_of_pos (by simpa using hp)]
        have hu1 : u = (u - 1) + 1 := by omega
        have hgd : (sigComps h w f n total).getD u (0, 0)
            = (rest.filter (fun s => decide (total < 20 * s.2))).getD (u - 1) (0, 0) := by
          rw [hsig2, hu1]
          rfl
        have hlen2 : u - 1 < (rest.filter (fun s => decide (total < 20 * s.2))).length := by
          rw [hsig2] at hulen
          simp only [List.length_cons] at hulen
          omega
        have hmem : (rest.filter (fun s => decide (total < 20 * s.2))).getD (u - 1) (0, 0)
            ∈ rest := List.mem_of_mem_filter (getD_mem hlen2)
        intro hEq
        exact (List.nodup_cons.mp hnd').1
          (List.mem_map.mpr ⟨_, hmem, by rw [← hEq, idAt, hgd]⟩)
      · have hsig2 : sigComps h w f n total
            = rest.filter (fun s => decide (total < 20 * s.2)) := by
          rw [hsig, List.filter_cons_of_neg (by simpa using hp)]
        have hmem : (sigComps h w f n total).getD u (0, 0) ∈ rest := by
          rw [hsig2]
          exact List.mem_of_mem_filter (getD_mem (by rw [← hsig2]; exact hulen))
        intro hEq
        exact (List.nodup_cons.mp hnd').1
          (List.mem_map.mpr ⟨_, hmem, by rw [← hEq]; rfl⟩)

theorem autoStep_rank0 (h w : Nat) (f : Nat → Nat → Nat) (n M total : Nat)
    (st : (Nat → Nat → Nat) × Nat) (i j : Nat)
    (h0 : f i j = idAt (sortedComps h w f n) 0) :
    (autoStep h w f n M total st).1 i j = st.1 i j := by
  rw [autoStep_unfold]
  dsimp only
  refine assignMany_ne f i j _ _ ?_
  intro kn hkn
  rcases List.mem_map.mp hkn with ⟨u, hu, rfl⟩
  have hb := List.mem_range'_1.mp hu
  have hulen : u < (sigComps h w f n total).length := by omega
  rw [h0]
  exact fun hEq => idAt_sig_ne_head h w f n total u (by omega) hulen hEq.symm

/-! #### Dispatch lemmas for one cluster iteration -/

theorem splitClusterStep_of_one (cc : CC) (pc : LMap) (thr : DistThreshold)
    (M : Nat) (st : (Nat → Nat → Nat) × Nat) (c : Nat)
    (hn : ¬ 1 < (cc pc.h pc.w (maskOf pc c)).2) :
    splitClusterStep cc pc thr M st c = st := by
  unfold splitClusterStep
  dsimp only
  rw [if_neg hn]

theorem splitClusterStep_over (cc : CC) (pc : LMap) (thr : DistThreshold)
    (M : Nat) (st : (Nat → Nat → Nat) × Nat) (c : Nat)
    (h1 : 1 < (cc pc.h pc.w (maskOf pc c)).2)
    (h2 : M < (cc pc.h pc.w (maskOf pc c)).2) :
    splitClusterStep cc pc thr M st c
      = overLimitStep pc.h pc.w (cc pc.h pc.w (maskOf pc c)).1
          (cc pc.h pc.w (maskOf pc c)).2 M st := by
  unfold splitClusterStep
  dsimp only
  rw [if_pos h1, if_pos h2]

theorem splitClusterStep_autoCase (cc : CC) (pc : LMap) (thr : DistThreshold)
    (M : Nat) (st : (Nat → Nat → Nat) × Nat) (c : Nat)
    (h1 : 1 < (cc pc.h pc.w (maskOf pc c)).2)
    (h2 : ¬ M < (cc pc.h pc.w (maskOf pc c)).2) (h3 : thr = DistThreshold.auto) :
    splitClusterStep cc pc thr M st c
      = autoStep pc.h pc.w (cc pc.h pc.w (maskOf pc c)).1
          (cc pc.h pc.w (maskOf pc c)).2 M (labelCount pc c) st := by
  unfold splitClusterStep
  dsimp only
  rw [if_pos h1, if_neg h2, if_pos h3]

theorem splitClusterStep_other (cc : CC) (pc : LMap) (thr : DistThreshold)
    (M : Nat) (st : (Nat → Nat → Nat) × Nat) (c : Nat)
    (h1 : 1 < (cc pc.h pc.w (maskOf pc c)).2)
    (h2 : ¬ M < (cc pc.h pc.w (maskOf pc c)).2) (h3 : thr ≠ DistThreshold.auto) :
    splitClusterStep cc pc thr M st c = st := by
  unfold splitClusterStep
  dsimp only
  rw [if_pos h1, if_neg h2, if_neg h3]

theorem splitClusterStep_snd_ge (cc : CC) (pc : LMap) (thr : DistThreshold)
    (M : Nat) (st : (Nat → Nat → Nat) × Nat) (c : Nat) :
    st.2 ≤ (splitClusterStep cc pc thr M st c).2 := by
  by_cases h1 : 1 < (cc pc.h pc.w (maskOf pc c)).2
  · by_cases h2 : M < (cc pc.h pc.w (maskOf pc c)).2
    · rw [splitClusterStep_over cc pc thr M st c h1 h2, overLimitStep_unfold]
      exact Nat.le_add_right _ _
    · by_cases h3 : thr = DistThreshold.auto
      · rw [splitClusterStep_autoCase cc pc thr M st c h1 h2 h3, autoStep_unfold]
        exact Nat.le_add_right _ _
      · rw [splitClusterStep_other cc pc thr M st c h1 h2 h3]
  · rw [splitClusterStep_of_one cc pc thr M st c h1]

/-- Iterations of the cluster loop only write to pixels whose input label
is the cluster being processed. -/
theorem splitClusterStep_frame (cc : CC) (pc : LMap) (thr : DistThreshold)
    (M : Nat) (st : (Nat → Nat → Nat) × Nat) (c : Nat) (i j : Nat)
    (hi : i < pc.h) (hj : j < pc.w)
    (Hspec : CCSpec pc.h pc.w (maskOf pc c) (cc pc.h pc.w (maskOf pc c)).1
      (cc pc.h pc.w (maskOf pc c)).2)
    (hne : pc.lab i j ≠ c) :
    (splitClusterStep cc pc thr M st c).1 i j = st.1 i j := by
  have hf : ∀ k, 1 ≤ k → k ≤ (cc pc.h pc.w (maskOf pc c)).2 →
      (cc pc.h pc.w (maskOf pc c)).1 i j ≠ k := by
    intro k hk1 hk2 hEq
    have hmem : ((i, j) : Nat × Nat) ∈ grid pc.h pc.w := mem_grid.mpr ⟨hi, hj⟩
    have hmask := (Hspec.1 (i, j) hmem).mpr ⟨hEq ▸ hk1, hEq ▸ hk2⟩
    exact hne (by simpa [maskOf] using hmask)
  by_cases h1 : 1 < (cc pc.h pc.w (maskOf pc c)).2
  · by_cases h2 : M < (cc pc.h pc.w (maskOf pc c)).2
    · rw [splitClusterStep_over cc pc thr M st c h1 h2]
      exact overLimitStep_frame _ _ _ _ _ _ i j hf
    · by_cases h3 : thr = DistThreshold.auto
      · rw [splitClusterStep_autoCase cc pc thr M st c h1 h2 h3]
        exact autoStep_frame _ _ _ _ _ _ _ i j hf
      · rw [splitClusterStep_other cc pc thr M st c h1 h2 h3]
  · rw [splitClusterStep_of_one cc pc thr M st c h1]

/-- In every branch, a pixel of the component ranked first (largest,
earliest on ties) keeps its current value; so does every pixel when the
cluster has at most one component. -/
theorem splitClusterStep_keep (cc : CC) (pc : LMap) (thr : DistThreshold)
    (M : Nat) (st : (Nat → Nat → Nat) × Nat) (c : Nat) (i j : Nat) (hM : 1 ≤ M)
    (h0 : (cc pc.h pc.w (maskOf pc c)).2 ≤ 1 ∨
      (cc pc.h pc.w (maskOf pc c)).1 i j
        = idAt (sortedComps pc.h pc.w (cc pc.h pc.w (maskOf pc c)).1
            (cc pc.h pc.w (maskOf pc c)).2) 0) :
    (splitClusterStep cc pc thr M st c).1 i j = st.1 i j := by
  by_cases h1 : 1 < (cc pc.h pc.w (maskOf pc c)).2
  · have hrk : (cc pc.h pc.w (maskOf pc c)).1 i j
        = idAt (sortedComps pc.h pc.w (cc pc.h pc.w (maskOf pc c)).1
            (cc pc.h pc.w (maskOf pc c)).2) 0 := by
      rcases h0 with h | h
      · omega
      · exact h
    by_cases h2 : M < (cc pc.h pc.w (maskOf pc c)).2
    · rw [splitClusterStep_over cc pc thr M st c h1 h2]
      exact overLimitStep_rank0 _ _ _ _ _ _ i j hM h2 hrk
    · by_cases h3 : thr = DistThreshold.auto
      · rw [splitClusterStep_autoCase cc pc thr M st c h1 h2 h3]
        exact autoStep_rank0 _ _ _ _ _ _ _ i j hrk
      · rw [splitClusterStep_other cc pc thr M st c h1 h2 h3]
  · rw [splitClusterStep_of_one cc pc thr M st c h1]

/-- In every branch, a pixel either keeps its current value or receives a
label in `[next_label, next_label + M - 1)` (for `M ≥ 2`). -/
theorem splitClusterStep_val (cc : CC) (pc : LMap) (thr : DistThreshold)
    (M : Nat) (st : (Nat → Nat → Nat) × Nat) (c : Nat) (i j : Nat) (hM : 2 ≤ M) :
    (splitClusterStep cc pc thr M st c).1 i j = st.1 i j ∨
      (st.2 ≤ (splitClusterStep cc pc thr M st c).1 i j ∧
        (splitClusterStep cc pc thr M st c).1 i j < st.2 + (M - 1)) := by
  by_cases h1 : 1 < (cc pc.h pc.w (maskOf pc c)).2
  · by_cases h2 : M < (cc pc.h pc.w (maskOf pc c)).2
    · rw [splitClusterStep_over cc pc thr M st c h1 h2]
      exact overLimitStep_val _ _ _ _ _ _ i j hM h2
    · by_cases h3 : thr = DistThreshold.auto
      · rw [splitClusterStep_autoCase cc pc thr M st c h1 h2 h3]
        exact autoStep_val _ _ _ _ _ _ _ i j
      · rw [splitClusterStep_other cc pc thr M st c h1 h2 h3]
        exact Or.inl rfl
  · rw [splitClusterStep_of_one cc pc thr M st c h1]
    exact Or.inl rfl

/-! #### The cluster-loop fold -/

theorem splitState_zero (cc : CC) (pc : LMap) (thr : DistThreshold)
    (nLayers M : Nat) : splitState cc pc thr nLayers M 0 = (pc.lab, nLayers) := rfl

theorem splitState_succ (cc : CC) (pc : LMap) (thr : DistThreshold)
    (nLayers M c : Nat) :
    splitState cc pc thr nLayers M (c + 1)
      = splitClusterStep cc pc thr M (splitState cc pc thr nLayers M c) c := by
  unfold splitState
  rw [List.range_succ, List.foldl_append]
  rfl

theorem splitState_snd_ge (cc : CC) (pc : LMap) (thr : DistThreshold)
    (nLayers M : Nat) : ∀ c, nLayers ≤ (splitState cc pc thr nLayers M c).2 := by
  intro c
  induction c with
  | zero => exact Nat.le_refl _
  | succ e ih =>
      rw [splitState_succ]
      exact Nat.le_trans ih (splitClusterStep_snd_ge cc pc thr M _ e)

/-- Pixels of clusters not yet processed still carry their input label. -/
theorem splitState_untouched (cc : CC) (pc : LMap) (thr : DistThreshold)
    (nLayers M : Nat) : ∀ (c : Nat),
    (∀ e < c, CCSpec pc.h pc.w (maskOf pc e) (cc pc.h pc.w (maskOf pc e)).1
      (cc pc.h pc.w (maskOf pc e)).2) →
    ∀ i j, i < pc.h → j < pc.w → c ≤ pc.lab i j →
    (splitState cc pc thr nLayers M c).1 i j = pc.lab i j := by
  intro c
  induction c with
  | zero => intro _ i j _ _ _; rfl
  | succ e ih =>
      intro Hcc i j hi hj hge
      rw [splitState_succ]
      rw [splitClusterStep_frame cc pc thr M _ e i j hi hj
        (Hcc e (Nat.lt_succ_self e)) (by omega)]
      exact ih (fun d hd => Hcc d (Nat.lt_succ_of_lt hd)) i j hi hj (by omega)

/-- Once cluster `c` has been processed, later iterations never change the
labels of `c`'s pixels. -/
theorem splitState_frame_from (cc : CC) (pc : LMap) (thr : DistThreshold)
    (nLayers M c : Nat) (i j : Nat) (hi : i < pc.h) (hj : j < pc.w)
    (hlab : pc.lab i j = c) : ∀ (d : Nat), c + 1 ≤ d →
    (∀ e < d, CCSpec pc.h pc.w (maskOf pc e) (cc pc.h pc.w (maskOf pc e)).1
      (cc pc.h pc.w (maskOf pc e)).2) →
    (splitState cc pc thr nLayers M d).1 i j
      = (splitState cc pc thr nLayers M (c + 1)).1 i j := by
  intro d
  induction d with
  | zero => intro hd; omega
  | succ e ih =>
      intro hd Hcc
      by_cases he : c + 1 = e + 1
      · rw [he]
      · have he2 : c + 1 ≤ e := by omega
        rw [splitState_succ]
        rw [splitClusterStep_frame cc pc thr M _ e i j hi hj
          (Hcc e (Nat.lt_succ_self e)) (by omega)]
        exact ih he2 (fun d hd2 => Hcc d (Nat.lt_succ_of_lt hd2))

/-- C2 (amended: `M ≥ 2`): for a cluster `c` whose mask has `n > M`
components, the splitter keeps the pixels of the largest component (rank
0) under `c`, gives the components ranked `1 .. M-1` the consecutive
fresh labels `base, base+1, ..., base+M-2` (where `base`, the value of
`next_label` when cluster `c` is reached, is at least `n_layers`, i.e.
past every label the clusterer produced), and merges every remaining
smaller component into `base + M - 2`, the last newly allocated label;
cluster `c` consumes exactly `M - 1` fresh labels. -/
theorem split_policy_over_limit (cc : CC) (pc : LMap) (thr : DistThreshold)
    (nLayers M : Nat)
    (Hcc : ∀ e < nLayers, CCSpec pc.h pc.w (maskOf pc e)
      (cc pc.h pc.w (maskOf pc e)).1 (cc pc.h pc.w (maskOf pc e)).2)
    (hM : 2 ≤ M) (c : Nat) (hc : c < nLayers)
    (hMn : M < (cc pc.h pc.w (maskOf pc c)).2) :
    nLayers ≤ (splitState cc pc thr nLayers M c).2 ∧
    (splitState cc pc thr nLayers M (c + 1)).2
      = (splitState cc pc thr nLayers M c).2 + (M - 1) ∧
    ∀ r < (cc pc.h pc.w (maskOf pc c)).2, ∀ i j, i < pc.h → j < pc.w →
      pc.lab i j = c →
      (cc pc.h pc.w (maskOf pc c)).1 i j
        = idAt (sortedComps pc.h pc.w (cc pc.h pc.w (maskOf pc c)).1
            (cc pc.h pc.w (maskOf pc c)).2) r →
      (applyDistanceThreshold cc pc thr nLayers M).lab i j
        = if r = 0 then c
          else if r < M then (splitState cc pc thr nLayers M c).2 + r - 1
          else (splitState cc pc thr nLayers M c).2 + M - 2 := by
  refine ⟨splitState_snd_ge cc pc thr nLayers M c, ?_, ?_⟩
  · rw [splitState_succ, splitClusterStep_over cc pc thr M _ c (by omega) hMn,
      overLimitStep_unfold]
    dsimp only
    have hmin : min (cc pc.h pc.w (maskOf pc c)).2 M = M := by omega
    rw [hmin]
  · intro r hr i j hi hj hlab hrk
    have hout : (applyDistanceThreshold cc pc thr nLayers M).lab i j
        = (splitState cc pc thr nLayers M (c + 1)).1 i j :=
      splitState_frame_from cc pc thr nLayers M c i j hi hj hlab nLayers
        (by omega) Hcc
    rw [hout, splitState_succ, splitClusterStep_over cc pc thr M _ c (by omega) hMn]
    by_cases hr0 : r = 0
    · subst hr0
      rw [if_pos rfl,
        overLimitStep_rank0 _ _ _ _ _ _ i j (by omega) hMn hrk,
        splitState_untouched cc pc thr nLayers M c
          (fun e he => Hcc e (by omega)) i j hi hj (by omega)]
      exact hlab
    · rw [if_neg hr0]
      by_cases hrM : r < M
      · rw [if_pos hrM]
        exact overLimitStep_mid _ _ _ _ _ _ i j r hMn (by omega) hrM hrk
      · rw [if_neg hrM,
          overLimitStep_tail _ _ _ _ _ _ i j r hMn (by omega) hr hrk]
        omega

/-- `scipy.ndimage.label` specialised to single-row masks: components are
maximal runs of `true`, numbered in scan order (only instantiated at
concrete single-row inputs, where its `CCSpec` contract is checked by
`decide`). -/
def rowCC : CC := fun _ w mask =>
  (fun i j =>
    if i = 0 ∧ j < w ∧ mask 0 j then
      (List.range (j + 1)).countP
        (fun t => mask 0 t && (decide (t = 0) || !mask 0 (t - 1)))
    else 0,
   (List.range w).countP
     (fun t => mask 0 t && (decide (t = 0) || !mask 0 (t - 1))))

/-- The 1×5 label map `[0, 1, 0, 1, 1]` (two clusters, cluster 0 split in
two single-pixel components). -/
def mapRow5 : LMap :=
  ⟨1, 5, fun _ j => if j = 0 then 0 else if j = 1 then 1 else if j = 2 then 0 else 1⟩

/-- The 1×7 label map `[0, 1, 0, 1, 0, 0, 1]` (cluster 0 has components
`{0}`, `{2}`, `{4,5}`; cluster 1 has components `{1}`, `{3}`, `{6}`). -/
def mapRow7 : LMap :=
  ⟨1, 7, fun _ j =>
    if j = 0 then 0 else if j = 1 then 1 else if j = 2 then 0 else
    if j = 3 then 1 else if j = 4 then 0 else if j = 5 then 0 else 1⟩

/-- Counterexample to C2 as stated (`M ≥ 1`): with `M = 1` on the map
`[0, 1, 0, 1, 1]` (`n_layers = 2`), cluster 0 has 2 > M components, yet
its smaller component (pixel `(0,2)`) is merged into label `1 = next_label - 1`
— an *existing* input label (`1 < n_layers`, the label of cluster 1, cf.
pixel `(0,3)`) — not a freshly allocated label appended after the highest
existing label index. -/
theorem split_policy_m1_counterexample :
    (applyDistanceThreshold rowCC mapRow5 DistThreshold.auto 2 1).lab 0 2 = 1 ∧
    mapRow5.lab 0 3 = 1 ∧ (1 : Nat) < 2 ∧
    1 < (rowCC mapRow5.h mapRow5.w (maskOf mapRow5 0)).2 ∧
    (∀ e < 2, CCSpec mapRow5.h mapRow5.w (maskOf mapRow5 e)
      (rowCC mapRow5.h mapRow5.w (maskOf mapRow5 e)).1
      (rowCC mapRow5.h mapRow5.w (maskOf mapRow5 e)).2) := by
  decide

/-- Witness for C2 (amended) at the 1×7 map with `M = 2`: the conclusion
instantiated at rank 1 of cluster 0 gives pixel `(0,0)` the first fresh
label `2`. -/
theorem split_policy_over_limit_witness :
    ((∀ e < 2, CCSpec mapRow7.h mapRow7.w (maskOf mapRow7 e)
        (rowCC mapRow7.h mapRow7.w (maskOf mapRow7 e)).1
        (rowCC mapRow7.h mapRow7.w (maskOf mapRow7 e)).2) ∧
      2 ≤ 2 ∧ 0 < 2 ∧ 2 < (rowCC mapRow7.h mapRow7.w (maskOf mapRow7 0)).2) ∧
    (applyDistanceThreshold rowCC mapRow7 DistThreshold.auto 2 2).lab 0 0 = 2 := by
  refine ⟨⟨by decide, Nat.le_refl 2, by decide, by decide⟩, ?_⟩
  have h := (split_policy_over_limit rowCC mapRow7 DistThreshold.auto 2 2
    (by decide) (Nat.le_refl 2) 0 (by decide) (by decide)).2.2
    1 (by decide) 0 0 (by decide) (by decide) (by decide) (by decide)
  rw [h]
  decide

/-- Total label mass of any map is the pixel count of the canvas. -/
theorem sum_labelCount (m : LMap) :
    ∑ l ∈ labelsPresent m, labelCount m l = m.h * m.w := by
  have h1 := Finset.card_eq_sum_card_image
    (fun p : Nat × Nat => m.lab p.1 p.2) (grid m.h m.w)
  have h2 : (grid m.h m.w).card = m.h * m.w := by
    rw [grid, Finset.card_product, Finset.card_range, Finset.card_range]
  rw [← h2, h1]
  rfl

/-- C5 (amended): the Spatial Splitter preserves the total labeled pixel
mass unconditionally; for `M ≥ 1` it never leaves an input label that had
pixels without pixels; and for `M ≥ 2` the pixels of each original
cluster survive under at most `M` distinct labels (for `M = 1` the last
bound fails, see the counterexample). -/
theorem splitter_invariants (cc : CC) (pc : LMap) (thr : DistThreshold)
    (nLayers M : Nat)
    (Hcc : ∀ e < nLayers, CCSpec pc.h pc.w (maskOf pc e)
      (cc pc.h pc.w (maskOf pc e)).1 (cc pc.h pc.w (maskOf pc e)).2) :
    (∑ l ∈ labelsPresent (applyDistanceThreshold cc pc thr nLayers M),
        labelCount (applyDistanceThreshold cc pc thr nLayers M) l
      = ∑ l ∈ labelsPresent pc, labelCount pc l) ∧
    (1 ≤ M → ∀ l ∈ labelsPresent pc,
      l ∈ labelsPresent (applyDistanceThreshold cc pc thr nLayers M)) ∧
    (2 ≤ M → ∀ c,
      (Finset.image
          (fun p => (applyDistanceThreshold cc pc thr nLayers M).lab p.1 p.2)
          ((grid pc.h pc.w).filter (fun p => pc.lab p.1 p.2 = c))).card ≤ M) := by
  refine ⟨?_, ?_, ?_⟩
  · rw [sum_labelCount, sum_labelCount]
    rfl
  · intro hM l hl
    rcases Finset.mem_image.mp hl with ⟨p, hp, hlp⟩
    have hpg := mem_grid.mp hp
    by_cases hln : l < nLayers
    · rcases Nat.lt_or_ge 1 (cc pc.h pc.w (maskOf pc l)).2 with hn | hn
      · -- pick a pixel of the rank-0 component
        have h0n : 0 < (cc pc.h pc.w (maskOf pc l)).2 := by omega
        have hid := idAt_mem_sortedComps pc.h pc.w
          (cc pc.h pc.w (maskOf pc l)).1 (cc pc.h pc.w (maskOf pc l)).2 h0n
        rcases (Hcc l hln).2 _ (Finset.mem_Icc.mpr hid) with ⟨q, hq, hfq, hmq⟩
        have hqg := mem_grid.mp hq
        have hql : pc.lab q.1 q.2 = l := by
          have := of_decide_eq_true hmq
          exact this
        refine Finset.mem_image.mpr ⟨q, hq, ?_⟩
        have hout : (applyDistanceThreshold cc pc thr nLayers M).lab q.1 q.2
            = (splitState cc pc thr nLayers M (l + 1)).1 q.1 q.2 :=
          splitState_frame_from cc pc thr nLayers M l q.1 q.2 hqg.1 hqg.2 hql
            nLayers (by omega) Hcc
        rw [hout, splitState_succ,
          splitClusterStep_keep cc pc thr M _ l q.1 q.2 hM (Or.inr hfq),
          splitState_untouched cc pc thr nLayers M l
            (fun e he => Hcc e (by omega)) q.1 q.2 hqg.1 hqg.2 (by omega)]
        exact hql
      · refine Finset.mem_image.mpr ⟨p, hp, ?_⟩
        have hout : (applyDistanceThreshold cc pc thr nLayers M).lab p.1 p.2
            = (splitState cc pc thr nLayers M (l + 1)).1 p.1 p.2 :=
          splitState_frame_from cc pc thr nLayers M l p.1 p.2 hpg.1 hpg.2 hlp
            nLayers (by omega) Hcc
        rw [hout, splitState_succ,
          splitClusterStep_keep cc pc thr M _ l p.1 p.2 hM (Or.inl (by omega)),
          splitState_untouched cc pc thr nLayers M l
            (fun e he => Hcc e (by omega)) p.1 p.2 hpg.1 hpg.2 (by omega)]
        exact hlp
    · refine Finset.mem_image.mpr ⟨p, hp, ?_⟩
      have hA : (applyDistanceThreshold cc pc thr nLayers M).lab
          = (splitState cc pc thr nLayers M nLayers).1 := rfl
      rw [hA, splitState_untouched cc pc thr nLayers M nLayers Hcc p.1 p.2
        hpg.1 hpg.2 (by omega)]
      exact hlp
  · intro hM c
    by_cases hc : c < nLayers
    · have hsub : Finset.image
          (fun p => (applyDistanceThreshold cc pc thr nLayers M).lab p.1 p.2)
          ((grid pc.h pc.w).filter (fun p => pc.lab p.1 p.2 = c))
          ⊆ insert c (Finset.Ico (splitState cc pc thr nLayers M c).2
              ((splitState cc pc thr nLayers M c).2 + (M - 1))) := by
        intro x hx
        rcases Finset.mem_image.mp hx with ⟨p, hp, hlp⟩
        have hpf := Finset.mem_filter.mp hp
        have hpg := mem_grid.mp hpf.1
        have hout : (applyDistanceThreshold cc pc thr nLayers M).lab p.1 p.2
            = (splitState cc pc thr nLayers M (c + 1)).1 p.1 p.2 :=
          splitState_frame_from cc pc thr nLayers M c p.1 p.2 hpg.1 hpg.2
            hpf.2 nLayers (by omega) Hcc
        rw [hout, splitState_succ] at hlp
        rcases splitClusterStep_val cc pc thr M _ c p.1 p.2 hM with hv | hv
        · rw [hv, splitState_untouched cc pc thr nLayers M c
            (fun e he => Hcc e (by omega)) p.1 p.2 hpg.1 hpg.2 (by omega),
            hpf.2] at hlp
          rw [← hlp]
          exact Finset.mem_insert_self c _
        · rw [← hlp]
          exact Finset.mem_insert_of_mem (Finset.mem_Ico.mpr hv)
      have hcard := Finset.card_le_card hsub
      have hIco : (Finset.Ico (splitState cc pc thr nLayers M c).2
          ((splitState cc pc thr nLayers M c).2 + (M - 1))).card = M - 1 := by
        rw [Nat.card_Ico]
        omega
      have hins := Finset.card_insert_le c
        (Finset.Ico (splitState cc pc thr nLayers M c).2
          ((splitState cc pc thr nLayers M c).2 + (M - 1)))
      omega
    · have hsub : Finset.image
          (fun p => (applyDistanceThreshold cc pc thr nLayers M).lab p.1 p.2)
          ((grid pc.h pc.w).filter (fun p => pc.lab p.1 p.2 = c))
          ⊆ {c} := by
        intro x hx
        rcases Finset.mem_image.mp hx with ⟨p, hp, hlp⟩
        have hpf := Finset.mem_filter.mp hp
        have hpg := mem_grid.mp hpf.1
        have hA : (applyDistanceThreshold cc pc thr nLayers M).lab
            = (splitState cc pc thr nLayers M nLayers).1 := rfl
        rw [hA, splitState_untouched cc pc thr nLayers M nLayers Hcc p.1 p.2
          hpg.1 hpg.2 (by omega), hpf.2] at hlp
        rw [← hlp]
        exact Finset.mem_singleton_self c
      have := Finset.card_le_card hsub
      have hone : ({c} : Finset Nat).card = 1 := Finset.card_singleton c
      omega

/-- Counterexample to C5 as stated: with `M = 1` on `[0, 1, 0, 1, 1]`
(`n_layers = 2`), the pixels of original cluster 0 survive under 2 > M
distinct labels. -/
theorem splitter_invariants_m1_counterexample :
    (Finset.image
        (fun p => (applyDistanceThreshold rowCC mapRow5 DistThreshold.auto 2 1).lab p.1 p.2)
        ((grid mapRow5.h mapRow5.w).filter (fun p => mapRow5.lab p.1 p.2 = 0))).card = 2 ∧
    ¬ ((Finset.image
        (fun p => (applyDistanceThreshold rowCC mapRow5 DistThreshold.auto 2 1).lab p.1 p.2)
        ((grid mapRow5.h mapRow5.w).filter (fun p => mapRow5.lab p.1 p.2 = 0))).card ≤ 1) ∧
    (∀ e < 2, CCSpec mapRow5.h mapRow5.w (maskOf mapRow5 e)
      (rowCC mapRow5.h mapRow5.w (maskOf mapRow5 e)).1
      (rowCC mapRow5.h mapRow5.w (maskOf mapRow5 e)).2) := by
  decide

/-- Witness for C5 (amended) at the 1×7 map with `M = 2`. -/
theorem splitter_invariants_witness :
    (∀ e < 2, CCSpec mapRow7.h mapRow7.w (maskOf mapRow7 e)
      (rowCC mapRow7.h mapRow7.w (maskOf mapRow7 e)).1
      (rowCC mapRow7.h mapRow7.w (maskOf mapRow7 e)).2) ∧
    ((∑ l ∈ labelsPresent (applyDistanceThreshold rowCC mapRow7 DistThreshold.auto 2 2),
        labelCount (applyDistanceThreshold rowCC mapRow7 DistThreshold.auto 2 2) l
      = ∑ l ∈ labelsPresent mapRow7, labelCount mapRow7 l) ∧
    (1 ≤ 2 → ∀ l ∈ labelsPresent mapRow7,
      l ∈ labelsPresent (applyDistanceThreshold rowCC mapRow7 DistThreshold.auto 2 2)) ∧
    (2 ≤ 2 → ∀ c,
      (Finset.image
          (fun p => (applyDistanceThreshold rowCC mapRow7 DistThreshold.auto 2 2).lab p.1 p.2)
          ((grid mapRow7.h mapRow7.w).filter (fun p => mapRow7.lab p.1 p.2 = c))).card ≤ 2)) :=
  ⟨by decide, splitter_invariants rowCC mapRow7 DistThreshold.auto 2 2 (by decide)⟩

/-! ### The Statistics Collector: `_calculate_statistics` -/

/-- In hard mode the visible pixel count of a layer is exactly the
membership count of its label. -/
theorem visibleCount_hard (img : Img) (m : LMap) (l : Nat) :
    visibleCount (makeLayer img m .hard l) = labelCount m l := by
  unfold visibleCount labelCount
  have hcongr : ∀ p ∈ grid m.h m.w,
      ((1 : ℝ) / 100 < (makeLayer img m .hard l).alpha p.1 p.2)
        ↔ (m.lab p.1 p.2 = l) := by
    intro p _
    show (1 : ℝ) / 100 < hardAlpha m l p.1 p.2 ↔ _
    unfold hardAlpha
    by_cases hm : m.lab p.1 p.2 = l
    · rw [if_pos hm]
      constructor
      · intro _; exact hm
      · intro _; norm_num
    · rw [if_neg hm]
      constructor
      · intro hlt; norm_num at hlt
      · intro hc; exact absurd hc hm
  show ((grid m.h m.w).filter _).card = _
  rw [Finset.filter_congr hcongr]

/-- Summing over the ascending sort of a finset is summing over the
finset. -/
theorem sum_map_sort (s : Finset Nat) (g : Nat → Nat) :
    ((s.sort (· ≤ ·)).map g).sum = ∑ l ∈ s, g l := by
  have hperm := (Finset.sort_perm_toList (· ≤ ·) s).map g
  rw [hperm.sum_eq, Finset.sum_to_list]

/-- Hard-mode layers cover each pixel once, so their visible counts sum
to the canvas area. -/
theorem sum_visibleCount_hard (img : Img) (m : LMap) :
    ((generateLayers img m .hard).map visibleCount).sum = m.h * m.w := by
  have h1 : (generateLayers img m .hard).map visibleCount
      = (sortedClusterSizes m).map (fun s => labelCount m s.1) := by
    rw [generateLayers, List.map_map]
    exact List.map_congr_left (fun s _ => visibleCount_hard img m s.1)
  rw [h1, ((sortedClusterSizes_perm m).map (fun s => labelCount m s.1)).sum_eq,
    clusterSizes, List.map_map]
  have h2 : ((fun s : Nat × Nat => labelCount m s.1) ∘ fun l => (l, labelCount m l))
      = fun l => labelCount m l := rfl
  rw [h2, uniqueClusters, sum_map_sort, sum_labelCount]

theorem list_sum_cast_mul (ls : List Nat) (c : ℚ) :
    (ls.map (fun n : Nat => (n : ℚ) * c)).sum = (ls.sum : ℚ) * c := by
  induction ls with
  | nil => simp
  | cons a t ih =>
      simp only [List.map_cons, List.sum_cons, ih]
      push_cast
      ring

theorem pyRound2_zero : pyRound2 (((0 : Nat) : ℚ) / (1024 * 1024) * 100) = 0 := by
  unfold pyRound2 pyRoundInt
  norm_num

theorem pyRound2_64 : pyRound2 (((64 : Nat) : ℚ) / (1024 * 1024) * 100) = 1 / 100 := by
  have hx : (100 : ℚ) * (((64 : Nat) : ℚ) / (1024 * 1024) * 100) = 625 / 1024 := by
    norm_num
  unfold pyRound2 pyRoundInt
  rw [hx]
  have hf : ⌊(625 / 1024 : ℚ)⌋ = 0 := by norm_num [Int.floor_eq_iff]
  rw [hf]
  norm_num

theorem pyRound2_1048448 :
    pyRound2 (((1048448 : Nat) : ℚ) / (1024 * 1024) * 100) = 9999 / 100 := by
  have hx : (100 : ℚ) * (((1048448 : Nat) : ℚ) / (1024 * 1024) * 100) = 5119375 / 512 := by
    norm_num
  unfold pyRound2 pyRoundInt
  rw [hx]
  have hf : ⌊(5119375 / 512 : ℚ)⌋ = 9998 := by norm_num [Int.floor_eq_iff]
  rw [hf]
  norm_num

/-- C7 (amended): (a) over the layer list emitted in hard edge mode from a
1024×1024 label map, the *exact* (pre-rounding) percentages
`pixel_count * 100 / (1024*1024)` sum to exactly 100%; (b) a statistics
entry for a layer with no pixel above the visibility threshold reports
pixel count 0, percentage 0.0 and colour (0,0,0) — the division is
guarded, so no division error can occur.  (The claim's `≤ 100%` bound
fails for the *reported*, 2-decimal-rounded percentages, see the
counterexample.) -/
theorem statistics_properties :
    (∀ (img : Img) (m : LMap), m.h = 1024 → m.w = 1024 →
      ((calculateStatistics (generateLayers img m .hard)).map
        (fun e => (e.pixelCount : ℚ) * 100 / (1024 * 1024))).sum = 100) ∧
    (∀ (layers : List Layer), ∀ e ∈ calculateStatistics layers,
      e.pixelCount = 0 → e.percentage = 0 ∧ ∀ c, e.averageColorRgb c = 0) := by
  constructor
  · intro img m hh hw
    unfold calculateStatistics
    rw [((List.perm_insertionSort statGE _).map
      (fun e => (e.pixelCount : ℚ) * 100 / (1024 * 1024))).sum_eq, List.map_map]
    have h3 : ((fun e : LayerStat => (e.pixelCount : ℚ) * 100 / (1024 * 1024))
          ∘ fun iL : Nat × Layer => layerStat iL.1 iL.2)
        = fun iL : Nat × Layer => (visibleCount iL.2 : ℚ) * (100 / (1024 * 1024)) := by
      funext iL
      show (visibleCount iL.2 : ℚ) * 100 / (1024 * 1024) = _
      rw [mul_div_assoc]
    rw [h3]
    have h4 : (generateLayers img m .hard).enum.map
          (fun iL : Nat × Layer => (visibleCount iL.2 : ℚ) * (100 / (1024 * 1024)))
        = ((generateLayers img m .hard).enum.map Prod.snd).map
            (fun L => (visibleCount L : ℚ) * (100 / (1024 * 1024))) := by
      rw [List.map_map]
      rfl
    rw [h4, List.enum_map_snd]
    have h5 : (generateLayers img m .hard).map
          (fun L => (visibleCount L : ℚ) * (100 / (1024 * 1024)))
        = ((generateLayers img m .hard).map visibleCount).map
            (fun n : Nat => (n : ℚ) * (100 / (1024 * 1024))) := by
      rw [List.map_map]
      rfl
    rw [h5, list_sum_cast_mul, sum_visibleCount_hard, hh, hw]
    norm_num
  · intro layers e he h0
    unfold calculateStatistics at he
    rw [List.Perm.mem_iff (List.perm_insertionSort statGE _)] at he
    rcases List.mem_map.mp he with ⟨iL, _, rfl⟩
    have hvis : visibleCount iL.2 = 0 := h0
    constructor
    · show pyRound2 ((visibleCount iL.2 : ℚ) / (1024 * 1024) * 100) = 0
      rw [hvis]
      exact pyRound2_zero
    · intro c
      show avgColor iL.2 c = 0
      unfold avgColor
      dsimp only
      split
      · rfl
      · case _ hcard => exact absurd hvis hcard

theorem card_filter_grid (h w : Nat) (P : Nat → Nat → Prop)
    [dp : ∀ i j, Decidable (P i j)] :
    ((grid h w).filter (fun p => P p.1 p.2)).card
      = ∑ i ∈ Finset.range h, ((Finset.range w).filter (fun j => P i j)).card := by
  rw [Finset.card_filter, grid, Finset.sum_product]
  refine Finset.sum_congr rfl (fun i _ => ?_)
  rw [Finset.card_filter]

theorem present_of_labelCount_pos (m : LMap) (l : Nat) (h : 1 ≤ labelCount m l) :
    l ∈ labelsPresent m := by
  rw [labelCount] at h
  rcases Finset.card_pos.mp (Nat.lt_of_lt_of_le Nat.zero_lt_one h) with ⟨p, hp⟩
  have hpf := Finset.mem_filter.mp hp
  exact Finset.mem_image.mpr ⟨p, hpf.1, hpf.2⟩

/-- An `H × W` label map with label 0 on the first `a` pixels of row 0,
label 1 on the next `b - a` pixels of row 0, and label 2 everywhere
else. -/
def threshMap (H W a b : Nat) : LMap :=
  ⟨H, W, fun i j => if i = 0 then (if j < a then 0 else if j < b then 1 else 2) else 2⟩

theorem sum_if_zero_row (H : Nat) (u v : Nat) (hH : 1 ≤ H) :
    (∑ i ∈ Finset.range H, if i = 0 then u else v) = u + (H - 1) * v := by
  have h0mem : (0 : Nat) ∈ Finset.range H := Finset.mem_range.mpr (by omega)
  rw [Finset.sum_eq_sum_diff_singleton_add h0mem]
  have hconst : ∀ i ∈ Finset.range H \ {0}, (if i = 0 then u else v) = v := by
    intro i hi
    have hne := (Finset.mem_sdiff.mp hi).2
    simp only [Finset.mem_singleton] at hne
    rw [if_neg hne]
  rw [Finset.sum_congr rfl hconst, Finset.sum_const]
  have hcard : (Finset.range H \ {0}).card = H - 1 := by
    rw [Finset.card_sdiff (Finset.singleton_subset_iff.mpr h0mem),
      Finset.card_range, Finset.card_singleton]
  rw [hcard, if_pos rfl, smul_eq_mul]
  omega

theorem threshMap_count0 (H W a b : Nat) (hH : 1 ≤ H) (hab : a ≤ b) (hbW : b ≤ W) :
    labelCount (threshMap H W a b) 0 = a := by
  rw [labelCount]
  have hcongr : ∀ p ∈ grid (threshMap H W a b).h (threshMap H W a b).w,
      ((threshMap H W a b).lab p.1 p.2 = 0) ↔ (p.1 = 0 ∧ p.2 < a) := by
    intro p _
    show (if p.1 = 0 then (if p.2 < a then 0 else if p.2 < b then 1 else 2) else 2) = 0 ↔ _
    split_ifs <;> simp_all <;> omega
  rw [Finset.filter_congr hcongr]
  show ((grid H W).filter (fun p => p.1 = 0 ∧ p.2 < a)).card = a
  rw [card_filter_grid H W (fun i j => i = 0 ∧ j < a)]
  have hrow : ∀ i ∈ Finset.range H,
      ((Finset.range W).filter (fun j => i = 0 ∧ j < a)).card
        = if i = 0 then a else 0 := by
    intro i _
    by_cases hi : i = 0
    · subst hi
      rw [if_pos rfl]
      have hc : (Finset.range W).filter (fun j => (0 : Nat) = 0 ∧ j < a)
          = (Finset.range W).filter (fun j => j < a) :=
        Finset.filter_congr (fun j _ => by simp)
      have he : (Finset.range W).filter (fun j => j < a) = Finset.range a := by
        ext j
        simp only [Finset.mem_filter, Finset.mem_range]
        constructor
        · intro hj
          exact hj.2
        · intro hj
          exact ⟨by omega, hj⟩
      rw [hc, he, Finset.card_range]
    · rw [if_neg hi, Finset.filter_false_of_mem (fun j _ => by simp [hi]),
        Finset.card_empty]
  rw [Finset.sum_congr rfl hrow, sum_if_zero_row H a 0 hH]
  omega

theorem threshMap_count1 (H W a b : Nat) (hH : 1 ≤ H) (hab : a ≤ b) (hbW : b ≤ W) :
    labelCount (threshMap H W a b) 1 = b - a := by
  rw [labelCount]
  have hcongr : ∀ p ∈ grid (threshMap H W a b).h (threshMap H W a b).w,
      ((threshMap H W a b).lab p.1 p.2 = 1) ↔ (p.1 = 0 ∧ a ≤ p.2 ∧ p.2 < b) := by
    intro p _
    show (if p.1 = 0 then (if p.2 < a then 0 else if p.2 < b then 1 else 2) else 2) = 1 ↔ _
    split_ifs <;> simp_all <;> omega
  rw [Finset.filter_congr hcongr]
  show ((grid H W).filter (fun p => p.1 = 0 ∧ a ≤ p.2 ∧ p.2 < b)).card = b - a
  rw [card_filter_grid H W (fun i j => i = 0 ∧ a ≤ j ∧ j < b)]
  have hrow : ∀ i ∈ Finset.range H,
      ((Finset.range W).filter (fun j => i = 0 ∧ a ≤ j ∧ j < b)).card
        = if i = 0 then b - a else 0 := by
    intro i _
    by_cases hi : i = 0
    · subst hi
      rw [if_pos rfl]
      have hc : (Finset.range W).filter (fun j => (0 : Nat) = 0 ∧ a ≤ j ∧ j < b)
          = (Finset.range W).filter (fun j => a ≤ j ∧ j < b) :=
        Finset.filter_congr (fun j _ => by simp)
      have he : (Finset.range W).filter (fun j => a ≤ j ∧ j < b) = Finset.Ico a b := by
        ext j
        simp only [Finset.mem_filter, Finset.mem_range, Finset.mem_Ico]
        constructor
        · intro hj
          exact hj.2
        · intro hj
          exact ⟨by omega, hj⟩
      rw [hc, he, Nat.card_Ico]
    · rw [if_neg hi, Finset.filter_false_of_mem (fun j _ => by simp [hi]),
        Finset.card_empty]
  rw [Finset.sum_congr rfl hrow, sum_if_zero_row H (b - a) 0 hH]
  omega

theorem threshMap_count2 (H W a b : Nat) (hH : 1 ≤ H) (hab : a ≤ b) (hbW : b ≤ W) :
    labelCount (threshMap H W a b) 2 = H * W - b := by
  rw [labelCount]
  have hcongr : ∀ p ∈ grid (threshMap H W a b).h (threshMap H W a b).w,
      ((threshMap H W a b).lab p.1 p.2 = 2) ↔ ¬(p.1 = 0 ∧ p.2 < b) := by
    intro p _
    show (if p.1 = 0 then (if p.2 < a then 0 else if p.2 < b then 1 else 2) else 2) = 2 ↔ _
    split_ifs <;> simp_all <;> omega
  rw [Finset.filter_congr hcongr]
  show ((grid H W).filter (fun p => ¬(p.1 = 0 ∧ p.2 < b))).card = H * W - b
  rw [card_filter_grid H W (fun i j => ¬(i = 0 ∧ j < b))]
  have hrow : ∀ i ∈ Finset.range H,
      ((Finset.range W).filter (fun j => ¬(i = 0 ∧ j < b))).card
        = if i = 0 then W - b else W := by
    intro i _
    by_cases hi : i = 0
    · subst hi
      rw [if_pos rfl]
      have hc : (Finset.range W).filter (fun j => ¬((0 : Nat) = 0 ∧ j < b))
          = (Finset.range W).filter (fun j => ¬(j < b)) :=
        Finset.filter_congr (fun j _ => by simp)
      have he : (Finset.range W).filter (fun j => ¬(j < b)) = Finset.Ico b W := by
        ext j
        simp only [Finset.mem_filter, Finset.mem_range, Finset.mem_Ico]
        constructor
        · intro hj
          exact ⟨by omega, hj.1⟩
        · intro hj
          exact ⟨by omega, by omega⟩
      rw [hc, he, Nat.card_Ico]
    · rw [if_neg hi, Finset.filter_true_of_mem (fun j _ => by simp [hi]),
        Finset.card_range]
  rw [Finset.sum_congr rfl hrow, sum_if_zero_row H (W - b) W hH]
  have h1 : H - 1 + 1 = H := by omega
  have h2 : H * W = (H - 1) * W + W := by
    calc H * W = (H - 1 + 1) * W := by rw [h1]
    _ = (H - 1) * W + W := by ring
  omega

theorem threshMap_present (H W a b : Nat) (h0a : 1 ≤ a) (hab : a < b)
    (hbW : b < W) (hH2 : 2 ≤ H) :
    labelsPresent (threshMap H W a b) = {0, 1, 2} := by
  have hH : 1 ≤ H := by omega
  ext l
  constructor
  · intro hl
    rcases Finset.mem_image.mp hl with ⟨p, _, rfl⟩
    simp only [Finset.mem_insert, Finset.mem_singleton]
    show (if p.1 = 0 then (if p.2 < a then 0 else if p.2 < b then 1 else 2) else 2) = 0 ∨
      (if p.1 = 0 then (if p.2 < a then 0 else if p.2 < b then 1 else 2) else 2) = 1 ∨
      (if p.1 = 0 then (if p.2 < a then 0 else if p.2 < b then 1 else 2) else 2) = 2
    split_ifs <;> simp
  · intro hl
    simp only [Finset.mem_insert, Finset.mem_singleton] at hl
    rcases hl with rfl | rfl | rfl
    · refine present_of_labelCount_pos _ 0 ?_
      rw [threshMap_count0 H W a b hH (by omega) (by omega)]
      omega
    · refine present_of_labelCount_pos _ 1 ?_
      rw [threshMap_count1 H W a b hH (by omega) (by omega)]
      omega
    · refine present_of_labelCount_pos _ 2 ?_
      rw [threshMap_count2 H W a b hH (by omega) (by omega)]
      have hb : b < H * W := by
        calc b < W := hbW
        _ ≤ H * W := Nat.le_mul_of_pos_left W (by omega : 0 < H)
      omega

/-- The 1024×1024 label map with labels `0` on the 64 pixels
`(0, 0..63)`, `1` on the 64 pixels `(0, 64..127)` and `2` everywhere
else — counts 64, 64 and 1048448, chosen so that all three reported
(2-decimal-rounded) percentages round up. -/
def cmap3 : LMap := threshMap 1024 1024 64 128

theorem cmap3_count0 : labelCount cmap3 0 = 64 := by
  rw [cmap3, threshMap_count0 1024 1024 64 128 (by norm_num) (by norm_num) (by norm_num)]

theorem cmap3_count1 : labelCount cmap3 1 = 64 := by
  rw [cmap3, threshMap_count1 1024 1024 64 128 (by norm_num) (by norm_num) (by norm_num)]

theorem cmap3_count2 : labelCount cmap3 2 = 1048448 := by
  rw [cmap3, threshMap_count2 1024 1024 64 128 (by norm_num) (by norm_num) (by norm_num)]

theorem cmap3_present : labelsPresent cmap3 = {0, 1, 2} := by
  rw [cmap3]
  exact threshMap_present 1024 1024 64 128 (by norm_num) (by norm_num) (by norm_num)
    (by norm_num)

theorem cmap3_sorted : sortedClusterSizes cmap3 = [(2, 1048448), (0, 64), (1, 64)] := by
  have hu : uniqueClusters cmap3 = [0, 1, 2] := by
    rw [uniqueClusters, cmap3_present]
    have h3 : ({0, 1, 2} : Finset Nat) = Finset.range 3 := by decide
    rw [h3, Finset.sort_range]
    rfl
  have hc : clusterSizes cmap3 = [(0, 64), (1, 64), (2, 1048448)] := by
    rw [clusterSizes, hu]
    simp [cmap3_count0, cmap3_count1, cmap3_count2]
  rw [sortedClusterSizes, hc]
  decide

/-- Counterexample to C7 as stated: the reported (2-decimal-rounded)
percentages of a hard-mode layer list can sum to 100.01% > 100%: counts
64, 64, 1048448 give exact percentages 0.0061..., 0.0061..., 99.9877...,
reported as 0.01, 0.01, 99.99. -/
theorem stats_sum_exceeds_100 :
    ((calculateStatistics (generateLayers ⟨1024, 1024, fun _ _ _ => 0⟩ cmap3 .hard)).map
      (fun e => e.percentage)).sum = 10001 / 100 ∧
    100 < ((calculateStatistics (generateLayers ⟨1024, 1024, fun _ _ _ => 0⟩ cmap3 .hard)).map
      (fun e => e.percentage)).sum := by
  have hsum : ((calculateStatistics (generateLayers ⟨1024, 1024, fun _ _ _ => 0⟩ cmap3 .hard)).map
      (fun e => e.percentage)).sum = 10001 / 100 := by
    unfold calculateStatistics
    rw [((List.perm_insertionSort statGE _).map (fun e => e.percentage)).sum_eq,
      List.map_map]
    have hlayers : generateLayers ⟨1024, 1024, fun _ _ _ => 0⟩ cmap3 .hard
        = [makeLayer ⟨1024, 1024, fun _ _ _ => 0⟩ cmap3 .hard 2,
           makeLayer ⟨1024, 1024, fun _ _ _ => 0⟩ cmap3 .hard 0,
           makeLayer ⟨1024, 1024, fun _ _ _ => 0⟩ cmap3 .hard 1] := by
      rw [generateLayers, cmap3_sorted]
      rfl
    rw [hlayers]
    show pyRound2 ((visibleCount (makeLayer _ cmap3 .hard 2) : ℚ) / (1024 * 1024) * 100)
        + (pyRound2 ((visibleCount (makeLayer _ cmap3 .hard 0) : ℚ) / (1024 * 1024) * 100)
        + (pyRound2 ((visibleCount (makeLayer _ cmap3 .hard 1) : ℚ) / (1024 * 1024) * 100)
        + 0)) = 10001 / 100
    rw [visibleCount_hard, visibleCount_hard, visibleCount_hard,
      cmap3_count0, cmap3_count1, cmap3_count2,
      pyRound2_64, pyRound2_1048448]
    norm_num
  exact ⟨hsum, by rw [hsum]; norm_num⟩

/-- Witness for C7 (amended): part (a) at a uniform 1024×1024 map, part
(b) at a single all-transparent layer. -/
theorem statistics_properties_witness :
    (((⟨1024, 1024, fun _ _ => 0⟩ : LMap).h = 1024
        ∧ (⟨1024, 1024, fun _ _ => 0⟩ : LMap).w = 1024) ∧
      ((calculateStatistics (generateLayers ⟨1024, 1024, fun _ _ _ => 0⟩
          ⟨1024, 1024, fun _ _ => 0⟩ .hard)).map
        (fun e => (e.pixelCount : ℚ) * 100 / (1024 * 1024))).sum = 100) ∧
    ((layerStat 0 ⟨0, 1, 1, fun _ _ _ => 0, fun _ _ => 0⟩
        ∈ calculateStatistics [⟨0, 1, 1, fun _ _ _ => 0, fun _ _ => 0⟩]
      ∧ (layerStat 0 ⟨0, 1, 1, fun _ _ _ => 0, fun _ _ => 0⟩).pixelCount = 0) ∧
      ((layerStat 0 ⟨0, 1, 1, fun _ _ _ => 0, fun _ _ => 0⟩).percentage = 0
        ∧ ∀ c, (layerStat 0 ⟨0, 1, 1, fun _ _ _ => 0, fun _ _ => 0⟩).averageColorRgb c = 0)) := by
  have hvis : visibleCount (⟨0, 1, 1, fun _ _ _ => 0, fun _ _ => 0⟩ : Layer) = 0 := by
    unfold visibleCount
    rw [Finset.filter_false_of_mem (fun p _ => by norm_num), Finset.card_empty]
  have hmem : layerStat 0 (⟨0, 1, 1, fun _ _ _ => 0, fun _ _ => 0⟩ : Layer)
      ∈ calculateStatistics [⟨0, 1, 1, fun _ _ _ => 0, fun _ _ => 0⟩] := by
    unfold calculateStatistics
    rw [List.Perm.mem_iff (List.perm_insertionSort statGE _)]
    exact List.mem_map.mpr ⟨(0, ⟨0, 1, 1, fun _ _ _ => 0, fun _ _ => 0⟩), by simp [List.enum], rfl⟩
  refine ⟨⟨⟨rfl, rfl⟩, statistics_properties.1 _ _ rfl rfl⟩, ⟨⟨hmem, hvis⟩, ?_⟩⟩
  exact statistics_properties.2 _ _ hmem hvis

/-! ### Layer ordering (C6): soft-mode blur facts -/

theorem gK_pos : 0 < gK := Real.exp_pos _

theorem gK_le_one : gK ≤ 1 := by
  rw [gK]
  exact le_of_lt (Real.exp_lt_one_iff.mpr (by norm_num))

theorem gK_gt_eighth : (1 : ℝ) / 8 < gK := by
  have h1 : Real.exp (-1) ≤ gK := by
    rw [gK]
    exact Real.exp_le_exp.mpr (by norm_num)
  have he : Real.exp 1 < 8 := lt_trans Real.exp_one_lt_d9 (by norm_num)
  have hp := Real.exp_pos 1
  have h2 : (1 : ℝ) / 8 < Real.exp (-1) := by
    rw [Real.exp_neg, inv_eq_one_div]
    rw [div_lt_div_iff (by norm_num) hp]
    linarith
  linarith

/-- The smallest normalised kernel weight (the off-centre one). -/
noncomputable def koff : ℝ := gK / (1 + 2 * gK)

theorem koff_pos : 0 < koff := by
  have := gK_pos
  rw [koff]
  positivity

theorem kw_pos (a : Fin 3) : 0 < kw a := by
  have := gK_pos
  rw [kw]
  split <;> positivity

theorem koff_le_kw (a : Fin 3) : koff ≤ kw a := by
  have hg := gK_pos
  have hg1 := gK_le_one
  have hd : (0 : ℝ) < 1 + 2 * gK := by linarith
  rw [koff, kw]
  split
  · rw [div_le_div_iff hd hd]
    nlinarith
  · exact le_refl _

theorem koff_sq_gt : (1 : ℝ) / 100 < koff * koff := by
  have hg := gK_gt_eighth
  have hgp := gK_pos
  have hd : (0 : ℝ) < 1 + 2 * gK := by linarith
  have h10 : (1 : ℝ) / 10 < koff := by
    rw [koff, lt_div_iff hd]
    linarith
  nlinarith

/-- `0.01 < blurred alpha` at a pixel iff some cell of its (reflected)
3×3 neighbourhood lies in the mask: the smallest kernel weight exceeds
the statistics threshold. -/
theorem softAlpha_pos_iff (m : LMap) (l i j : Nat) :
    (1 : ℝ) / 100 < softAlpha m l i j ↔
      ∃ d : Fin 3 × Fin 3,
        membB m l (reflect101 m.h ((i : Int) + (d.1 : Nat) - 1))
          (reflect101 m.w ((j : Int) + (d.2 : Nat) - 1)) = true := by
  constructor
  · intro h
    by_contra hno
    push_neg at hno
    have hz : softAlpha m l i j = 0 := by
      rw [softAlpha]
      refine Finset.sum_eq_zero (fun d _ => ?_)
      rw [if_neg (by simpa using hno d), mul_zero]
    rw [hz] at h
    norm_num at h
  · rintro ⟨d, hd⟩
    have hterm : koff * koff
        ≤ kw d.1 * kw d.2 *
          (if membB m l (reflect101 m.h ((i : Int) + (d.1 : Nat) - 1))
              (reflect101 m.w ((j : Int) + (d.2 : Nat) - 1)) then 1 else 0) := by
      rw [if_pos hd, mul_one]
      exact mul_le_mul (koff_le_kw d.1) (koff_le_kw d.2)
        (le_of_lt koff_pos) (le_of_lt (kw_pos d.1))
    have hsum : kw d.1 * kw d.2 *
          (if membB m l (reflect101 m.h ((i : Int) + (d.1 : Nat) - 1))
              (reflect101 m.w ((j : Int) + (d.2 : Nat) - 1)) then 1 else 0)
        ≤ softAlpha m l i j := by
      rw [softAlpha]
      apply Finset.single_le_sum ?_ (Finset.mem_univ d)
      intro e _
      have h1 := le_of_lt (kw_pos e.1)
      have h2 := le_of_lt (kw_pos e.2)
      have h3 : (0 : ℝ) ≤ (if membB m l (reflect101 m.h ((i : Int) + (e.1 : Nat) - 1))
          (reflect101 m.w ((j : Int) + (e.2 : Nat) - 1)) then (1 : ℝ) else 0) := by
        split <;> norm_num
      exact mul_nonneg (mul_nonneg h1 h2) h3
    exact lt_of_lt_of_le koff_sq_gt (le_trans hterm hsum)

/-- Decidable form of soft-mode visibility: the (reflected) 3×3
neighbourhood meets the mask. -/
def softVisB (m : LMap) (l : Nat) (i j : Nat) : Bool :=
  decide (∃ d : Fin 3 × Fin 3,
    membB m l (reflect101 m.h ((i : Int) + (d.1 : Nat) - 1))
      (reflect101 m.w ((j : Int) + (d.2 : Nat) - 1)) = true)

theorem visibleCount_soft (img : Img) (m : LMap) (l : Nat) :
    visibleCount (makeLayer img m .soft l)
      = ((grid m.h m.w).filter (fun p => softVisB m l p.1 p.2 = true)).card := by
  unfold visibleCount
  have hcongr : ∀ p ∈ grid m.h m.w,
      ((1 : ℝ) / 100 < (makeLayer img m .soft l).alpha p.1 p.2)
        ↔ (softVisB m l p.1 p.2 = true) := by
    intro p _
    show (1 : ℝ) / 100 < softAlpha m l p.1 p.2 ↔ _
    rw [softAlpha_pos_iff, softVisB]
    simp
  show ((grid m.h m.w).filter _).card = _
  rw [Finset.filter_congr hcongr]

/-- The 8×8 label map with label 1 on the 2×2 block `(4..5, 4..5)`,
label 2 on the three isolated pixels `(1,1)`, `(1,5)`, `(5,1)` and
label 0 elsewhere.  Raw sizes are 57 > 4 > 3 but soft-mode visible
counts are 64, 16, 27: the isolated pixels dilate to more visible pixels
than the compact block. -/
def cmap6 : LMap :=
  ⟨8, 8, fun i j =>
    if 4 ≤ i ∧ i ≤ 5 ∧ 4 ≤ j ∧ j ≤ 5 then 1
    else if (i = 1 ∧ j = 1) ∨ (i = 1 ∧ j = 5) ∨ (i = 5 ∧ j = 1) then 2
    else 0⟩

/-- Counterexample to C6 as stated: in soft edge mode the emitted layer
list (ordered by raw membership count 57 > 4 > 3) has visible pixel
counts 64, 16, 27, which is not non-increasing. -/
theorem layer_order_soft_counterexample :
    ((generateLayers ⟨8, 8, fun _ _ _ => 0⟩ cmap6 .soft).map visibleCount
      = [64, 16, 27]) ∧
    ¬ List.Sorted (fun x y : Nat => y ≤ x)
      ((generateLayers ⟨8, 8, fun _ _ _ => 0⟩ cmap6 .soft).map visibleCount) := by
  have hp : labelsPresent cmap6 = {0, 1, 2} := by decide
  have hu : uniqueClusters cmap6 = [0, 1, 2] := by
    rw [uniqueClusters, hp]
    have h3 : ({0, 1, 2} : Finset Nat) = Finset.range 3 := by decide
    rw [h3, Finset.sort_range]
    rfl
  have hc : clusterSizes cmap6 = [(0, 57), (1, 4), (2, 3)] := by
    rw [clusterSizes, hu]
    have c0 : labelCount cmap6 0 = 57 := by decide
    have c1 : labelCount cmap6 1 = 4 := by decide
    have c2 : labelCount cmap6 2 = 3 := by decide
    simp [c0, c1, c2]
  have hsorted : sortedClusterSizes cmap6 = [(0, 57), (1, 4), (2, 3)] := by
    rw [sortedClusterSizes, hc]
    decide
  have hlayers : generateLayers ⟨8, 8, fun _ _ _ => 0⟩ cmap6 .soft
      = [makeLayer ⟨8, 8, fun _ _ _ => 0⟩ cmap6 .soft 0,
         makeLayer ⟨8, 8, fun _ _ _ => 0⟩ cmap6 .soft 1,
         makeLayer ⟨8, 8, fun _ _ _ => 0⟩ cmap6 .soft 2] := by
    rw [generateLayers, hsorted]
    rfl
  have v0 : visibleCount (makeLayer ⟨8, 8, fun _ _ _ => 0⟩ cmap6 .soft 0) = 64 := by
    rw [visibleCount_soft]
    decide
  have v1 : visibleCount (makeLayer ⟨8, 8, fun _ _ _ => 0⟩ cmap6 .soft 1) = 16 := by
    rw [visibleCount_soft]
    decide
  have v2 : visibleCount (makeLayer ⟨8, 8, fun _ _ _ => 0⟩ cmap6 .soft 2) = 27 := by
    rw [visibleCount_soft]
    decide
  have hmap : (generateLayers ⟨8, 8, fun _ _ _ => 0⟩ cmap6 .soft).map visibleCount
      = [64, 16, 27] := by
    rw [hlayers]
    simp only [List.map_cons, List.map_nil, v0, v1, v2]
  refine ⟨hmap, ?_⟩
  rw [hmap]
  decide

theorem mem_sortedClusterSizes_snd (m : LMap) {s : Nat × Nat}
    (hs : s ∈ sortedClusterSizes m) : s.2 = labelCount m s.1 := by
  have hmem : s ∈ clusterSizes m := (sortedClusterSizes_perm m).subset hs
  rcases List.mem_map.mp hmem with ⟨l, _, rfl⟩
  rfl

/-- C6 (amended): in both edge modes the emitted layer list is ordered
non-increasing in *membership* pixel count of the final label map
(recomputed freshly from it); in hard mode membership count equals
visible pixel count, so there the list is also non-increasing in visible
pixel count.  (In soft mode the visible-count ordering can fail, see the
counterexample.) -/
theorem layer_order_amended (img : Img) (m : LMap) :
    (∀ mode, List.Sorted (fun x y : Nat => y ≤ x)
      ((generateLayers img m mode).map (fun L => labelCount m L.srcLabel))) ∧
    List.Sorted (fun x y : Nat => y ≤ x)
      ((generateLayers img m .hard).map visibleCount) := by
  have hsorted : List.Sorted sizeGE (sortedClusterSizes m) :=
    List.sorted_insertionSort sizeGE (clusterSizes m)
  have hsnd : List.Sorted (fun x y : Nat => y ≤ x)
      ((sortedClusterSizes m).map Prod.snd) := by
    exact List.Pairwise.map Prod.snd (fun a b hab => hab) hsorted
  constructor
  · intro mode
    have hmap : (generateLayers img m mode).map (fun L => labelCount m L.srcLabel)
        = (sortedClusterSizes m).map Prod.snd := by
      rw [generateLayers, List.map_map]
      refine List.map_congr_left (fun s hs => ?_)
      show labelCount m (makeLayer img m mode s.1).srcLabel = s.2
      rw [makeLayer_srcLabel, mem_sortedClusterSizes_snd m hs]
    rw [hmap]
    exact hsnd
  · have hmap : (generateLayers img m .hard).map visibleCount
        = (sortedClusterSizes m).map Prod.snd := by
      rw [generateLayers, List.map_map]
      refine List.map_congr_left (fun s hs => ?_)
      show visibleCount (makeLayer img m .hard s.1) = s.2
      rw [visibleCount_hard, mem_sortedClusterSizes_snd m hs]
    rw [hmap]
    exact hsnd

/-! ### The `process_image` pipeline: loading, caching, clustering

`process_image` opens the file with PIL, composites RGBA onto white,
converts any other non-RGB mode to RGB, resizes to 1024×1024 when
needed, then runs SLIC, feature extraction (cached per
`(cache_key, n_segments, compactness)`), K-means, the spatial splitter,
layer generation and statistics.  The numeric stages already embedded
above are reused; SLIC, feature extraction, the K-means assignment and
the mode conversions are deterministic library calls abstracted as
function parameters (`StageFns`).  sklearn KMeans input validation
(`n_clusters ≥ 1`, `n_samples ≥ n_clusters`) is embedded explicitly. -/

/-- A superpixel feature vector: mean LAB color of the region. -/
abbrev Feat : Type := ℚ × ℚ × ℚ

/-- `weighted_colors[:, 0] *= 0.65`: the L channel is scaled to reduce
lightness influence before clustering. -/
def weightColors (colors : List Feat) : List Feat :=
  colors.map (fun c => (65 / 100 * c.1, c.2.1, c.2.2))

/-- `_perform_kmeans`: sklearn `KMeans(...).fit_predict` raises a
`ValueError` when `n_clusters < 1` or when the number of samples is
below `n_clusters`; otherwise it returns one cluster label per sample,
computed by the (abstracted, deterministic: `random_state=42`)
assignment on the lightness-weighted colors. -/
def performKmeans (assign : List Feat → Nat → Nat → Nat) (colors : List Feat)
    (K : Nat) : Except String (List Nat) :=
  if K = 0 then Except.error "KMeans requires n_clusters to be at least 1"
  else if colors.length < K then Except.error "n_samples should be >= n_clusters"
  else Except.ok ((List.range colors.length).map (assign (weightColors colors) K))

/-- PIL image modes as far as `process_image` distinguishes them. -/
inductive PMode where
  | rgb
  | rgba
  | gray
deriving DecidableEq

/-- A raw input file: either undecodable (PIL `Image.open` raises) or a
decoded image with a mode, a size and abstract pixel data. -/
inductive RawImage where
  | undecodable
  | decoded (mode : PMode) (h0 w0 data : Nat)

/-- The processing stages, recorded as a ghost trace so that theorems
can speak about which computations ran before a failure. -/
inductive Stage where
  | load
  | slic
  | extract
  | kmeans
  | split
  | layers
  | stats
deriving DecidableEq

/-- The deterministic library calls of the pipeline, abstracted:
RGB decoding, RGBA compositing on white, mode conversion, LANCZOS
resizing, SLIC, per-superpixel LAB mean extraction, the K-means
assignment and the connected-component labeler. -/
structure StageFns where
  ofRGB : Nat → Nat → Nat → Img
  composite : Nat → Nat → Nat → Img
  convert : Nat → Nat → Nat → Img
  resize : Img → Img
  slic : Img → Nat → Nat → LMap
  extract : Img → LMap → List Feat
  assign : List Feat → Nat → Nat → Nat
  cc : CC

/-- Image loading: RGBA is composited on a white background, any other
non-RGB mode is converted to RGB, and the result is resized to
1024×1024 unless it already has that size. -/
def loadImg (F : StageFns) (mode : PMode) (h0 w0 data : Nat) : Img :=
  let img0 :=
    match mode with
    | PMode.rgba => F.composite data h0 w0
    | PMode.rgb => F.ofRGB data h0 w0
    | PMode.gray => F.convert data h0 w0
  if h0 = 1024 ∧ w0 = 1024 then img0 else F.resize img0

/-- The processor cache (`self.cache`). -/
structure Cache where
  imagePath : Option Nat
  nSegments : Option Nat
  compactness : Option Nat
  superpixels : Option LMap
  superpixelColors : Option (List Feat)

/-- The cache as initialised in `__init__`: all entries `None`. -/
def emptyCache : Cache := ⟨none, none, none, none, none⟩

/-- `can_reuse_superpixels`: the stored key and partitioning parameters
match and both cached arrays are present. -/
def canReuse (c : Cache) (key nSeg comp : Nat) : Bool :=
  c.imagePath == some key && c.nSegments == some nSeg && c.compactness == some comp
    && c.superpixels.isSome && c.superpixelColors.isSome

/-- Steps 1–2 of `process_image` with the cache check: on a hit, the
cached superpixels and colors are reused and the cache is untouched;
otherwise SLIC and feature extraction run and the cache is overwritten
with the new key, parameters and arrays. -/
def superpixelStage (F : StageFns) (cache : Cache) (img : Img) (key nSeg comp : Nat) :
    LMap × List Feat × Cache :=
  if canReuse cache key nSeg comp then
    (cache.superpixels.getD ⟨0, 0, fun _ _ => 0⟩, cache.superpixelColors.getD [], cache)
  else
    let sp := F.slic img nSeg comp
    let colors := F.extract img sp
    (sp, colors, ⟨some key, some nSeg, some comp, some sp, some colors⟩)

/-- The pipeline parameters (`params`). -/
structure PParams where
  cacheKey : Nat
  nSegments : Nat
  compactness : Nat
  nLayers : Nat
  distThr : DistThreshold
  maxRegions : Nat
  edgeMode : EdgeMode

/-- A successful result: the layer list and its statistics. -/
structure PResult where
  layers : List Layer
  statistics : List LayerStat

/-- Steps 3–7 of `process_image`: K-means (which may raise), mapping
cluster labels back to pixels, the spatial splitter (skipped when the
distance threshold is off), layer generation and statistics. -/
noncomputable def pipelineTail (F : StageFns) (img : Img) (sp : LMap)
    (colors : List Feat) (p : PParams) : Except String PResult × List Stage :=
  match performKmeans F.assign colors p.nLayers with
  | Except.error e => (Except.error e, [Stage.kmeans])
  | Except.ok clusterLabels =>
    let pc : LMap := ⟨sp.h, sp.w, fun i j => clusterLabels.getD (sp.lab i j) 0⟩
    let step :=
      match p.distThr with
      | DistThreshold.off => (pc, [Stage.kmeans])
      | t => (applyDistanceThreshold F.cc pc t p.nLayers p.maxRegions,
          [Stage.kmeans, Stage.split])
    let ls := generateLayers img step.1 p.edgeMode
    (Except.ok ⟨ls, calculateStatistics ls⟩, step.2 ++ [Stage.layers, Stage.stats])

/-- `process_image`: an undecodable input raises inside `Image.open`
before anything else runs; a decoded input is loaded, the superpixel
stage runs (through the cache), and the rest of the pipeline follows.
No parameter validation is performed anywhere.  Returns the result or
the first error, the trace of stages that ran, and the final cache. -/
noncomputable def processImage (F : StageFns) (cache : Cache) (raw : RawImage)
    (p : PParams) : Except String PResult × List Stage × Cache :=
  match raw with
  | RawImage.undecodable => (Except.error "cannot identify image file", [], cache)
  | RawImage.decoded mode h0 w0 data =>
    let img := loadImg F mode h0 w0 data
    let s := superpixelStage F cache img p.cacheKey p.nSegments p.compactness
    let trace1 :=
      if canReuse cache p.cacheKey p.nSegments p.compactness then [Stage.load]
      else [Stage.load, Stage.slic, Stage.extract]
    let t := pipelineTail F img s.1 s.2.1 p
    (t.1, trace1 ++ t.2, s.2.2)

/-- The superpixel feature array consumed by the K-means stage of an
invocation (the array whose bit-identity across runs the spec asks to
verify). -/
def featuresUsed (F : StageFns) (cache : Cache) (raw : RawImage) (p : PParams) :
    List Feat :=
  match raw with
  | RawImage.undecodable => []
  | RawImage.decoded mode h0 w0 data =>
    (superpixelStage F cache (loadImg F mode h0 w0 data)
      p.cacheKey p.nSegments p.compactness).2.1

theorem canReuse_empty (key nSeg comp : Nat) :
    canReuse emptyCache key nSeg comp = false := rfl

theorem canReuse_filled (key nSeg comp : Nat) (sp : LMap) (colors : List Feat) :
    canReuse ⟨some key, some nSeg, some comp, some sp, some colors⟩ key nSeg comp
      = true := by
  simp [canReuse]

theorem superpixelStage_fresh (F : StageFns) (cache : Cache) (img : Img)
    (key nSeg comp : Nat) (h : canReuse cache key nSeg comp = false) :
    superpixelStage F cache img key nSeg comp
      = (F.slic img nSeg comp, F.extract img (F.slic img nSeg comp),
         ⟨some key, some nSeg, some comp, some (F.slic img nSeg comp),
          some (F.extract img (F.slic img nSeg comp))⟩) := by
  unfold superpixelStage
  rw [h]
  rfl

theorem superpixelStage_hit (F : StageFns) (cache : Cache) (img : Img)
    (key nSeg comp : Nat) (sp : LMap) (colors : List Feat)
    (h : canReuse cache key nSeg comp = true)
    (hsp : cache.superpixels = some sp)
    (hcol : cache.superpixelColors = some colors) :
    superpixelStage F cache img key nSeg comp = (sp, colors, cache) := by
  unfold superpixelStage
  rw [h, hsp, hcol]
  rfl

theorem processImage_fst (F : StageFns) (cache : Cache) (mode : PMode)
    (h0 w0 data : Nat) (p : PParams) :
    (processImage F cache (RawImage.decoded mode h0 w0 data) p).1
      = (pipelineTail F (loadImg F mode h0 w0 data)
          (superpixelStage F cache (loadImg F mode h0 w0 data)
            p.cacheKey p.nSegments p.compactness).1
          (superpixelStage F cache (loadImg F mode h0 w0 data)
            p.cacheKey p.nSegments p.compactness).2.1 p).1 := rfl

theorem processImage_trace (F : StageFns) (cache : Cache) (mode : PMode)
    (h0 w0 data : Nat) (p : PParams) :
    (processImage F cache (RawImage.decoded mode h0 w0 data) p).2.1
      = (if canReuse cache p.cacheKey p.nSegments p.compactness then [Stage.load]
         else [Stage.load, Stage.slic, Stage.extract])
        ++ (pipelineTail F (loadImg F mode h0 w0 data)
          (superpixelStage F cache (loadImg F mode h0 w0 data)
            p.cacheKey p.nSegments p.compactness).1
          (superpixelStage F cache (loadImg F mode h0 w0 data)
            p.cacheKey p.nSegments p.compactness).2.1 p).2 := rfl

theorem processImage_cacheOut (F : StageFns) (cache : Cache) (mode : PMode)
    (h0 w0 data : Nat) (p : PParams) :
    (processImage F cache (RawImage.decoded mode h0 w0 data) p).2.2
      = (superpixelStage F cache (loadImg F mode h0 w0 data)
          p.cacheKey p.nSegments p.compactness).2.2 := rfl

theorem pipelineTail_err (F : StageFns) (img : Img) (sp : LMap) (colors : List Feat)
    (p : PParams) (e : String)
    (h : performKmeans F.assign colors p.nLayers = Except.error e) :
    pipelineTail F img sp colors p = (Except.error e, [Stage.kmeans]) := by
  unfold pipelineTail
  rw [h]

theorem pipelineTail_ok (F : StageFns) (img : Img) (sp : LMap) (colors : List Feat)
    (p : PParams)
    (h : ∃ ls, performKmeans F.assign colors p.nLayers = Except.ok ls) :
    ∃ r, (pipelineTail F img sp colors p).1 = Except.ok r := by
  rcases h with ⟨ls, h⟩
  unfold pipelineTail
  rw [h]
  exact ⟨_, rfl⟩

/-! ### C3: K-means success condition -/

/-- C3 (amended): clustering does not tolerate K ≥ R.  `_perform_kmeans`
completes without raising exactly when 1 ≤ K and K ≤ R (sklearn KMeans
raises a ValueError when the sample count is below `n_clusters` or when
`n_clusters` is zero), and on success it returns exactly one cluster
label per region — never K labels with degenerate extras when R < K. -/
theorem kmeans_success_iff (assign : List Feat → Nat → Nat → Nat)
    (colors : List Feat) (K : Nat) :
    ((∃ ls, performKmeans assign colors K = Except.ok ls)
        ↔ 1 ≤ K ∧ K ≤ colors.length) ∧
    (∀ ls, performKmeans assign colors K = Except.ok ls
        → ls.length = colors.length) := by
  constructor
  · unfold performKmeans
    split_ifs with h1 h2
    · constructor
      · rintro ⟨ls, hls⟩
        cases hls
      · rintro ⟨hK, _⟩
        omega
    · constructor
      · rintro ⟨ls, hls⟩
        cases hls
      · rintro ⟨hK, hR⟩
        omega
    · exact ⟨fun _ => ⟨by omega, by omega⟩, fun _ => ⟨_, rfl⟩⟩
  · intro ls hls
    unfold performKmeans at hls
    split_ifs at hls
    cases hls
    rw [List.length_map, List.length_range]

/-- Counterexample to C3 as stated: a single-region input (R = 1, e.g.
a uniform single-color image whose regions all merge) with requested
layer count K = 3 ≥ R makes `_perform_kmeans` raise sklearn's
n_samples ValueError instead of completing with 3 labels. -/
theorem kmeans_single_region_counterexample :
    [((0 : ℚ), (0 : ℚ), (0 : ℚ))].length ≤ 3 ∧
    performKmeans (fun _ _ _ => 0) [((0 : ℚ), (0 : ℚ), (0 : ℚ))] 3
      = Except.error "n_samples should be >= n_clusters" := by
  exact ⟨by simp, rfl⟩

theorem kmeans_success_iff_witness :
    performKmeans (fun _ _ _ => 0) [((0 : ℚ), (0 : ℚ), (0 : ℚ))] 1
      = Except.ok [0] ∧
    ([0] : List Nat).length = [((0 : ℚ), (0 : ℚ), (0 : ℚ))].length :=
  ⟨rfl, (kmeans_success_iff (fun _ _ _ => 0)
    [((0 : ℚ), (0 : ℚ), (0 : ℚ))] 1).2 [0] rfl⟩

/-! ### C4: no upfront parameter validation -/

/-- C4 (amended): `process_image` performs no upfront parameter
validation.  An invocation with `max_regions_per_color = 0` (< 1)
completes successfully end to end, and an invocation with
`layer_count = 0` does fail, but only inside the K-means stage — after
SLIC partitioning and feature extraction have already run, as the stage
trace shows — though indeed with a single error and no partial layer
list. -/
theorem process_image_no_fail_fast (F : StageFns) (cache : Cache) (mode : PMode)
    (h0 w0 data : Nat) (p q : PParams)
    (hp : canReuse cache p.cacheKey p.nSegments p.compactness = false)
    (hq : canReuse cache q.cacheKey q.nSegments q.compactness = false)
    (hM : p.maxRegions = 0)
    (hK : 1 ≤ p.nLayers)
    (hR : p.nLayers ≤ (featuresUsed F cache (RawImage.decoded mode h0 w0 data) p).length)
    (hq0 : q.nLayers = 0) :
    (∃ r, (processImage F cache (RawImage.decoded mode h0 w0 data) p).1
        = Except.ok r) ∧
    (∃ e, (processImage F cache (RawImage.decoded mode h0 w0 data) q).1
        = Except.error e) ∧
    (processImage F cache (RawImage.decoded mode h0 w0 data) q).2.1
      = [Stage.load, Stage.slic, Stage.extract, Stage.kmeans] := by
  have hcol : featuresUsed F cache (RawImage.decoded mode h0 w0 data) p
      = (superpixelStage F cache (loadImg F mode h0 w0 data)
          p.cacheKey p.nSegments p.compactness).2.1 := rfl
  rw [hcol] at hR
  have hkm0 : performKmeans F.assign
      (superpixelStage F cache (loadImg F mode h0 w0 data)
        q.cacheKey q.nSegments q.compactness).2.1 q.nLayers
      = Except.error "KMeans requires n_clusters to be at least 1" := by
    rw [hq0, performKmeans, if_pos rfl]
  refine ⟨?_, ?_, ?_⟩
  · rw [processImage_fst]
    refine pipelineTail_ok F _ _ _ p ?_
    rw [performKmeans, if_neg (by omega), if_neg (by omega)]
    exact ⟨_, rfl⟩
  · rw [processImage_fst, pipelineTail_err F _ _ _ q _ hkm0]
    exact ⟨_, rfl⟩
  · rw [processImage_trace, pipelineTail_err F _ _ _ q _ hkm0, hq]
    rfl

/-- Trivial concrete stage functions for witnesses: a constant 1×1
superpixel map with a single feature. -/
def trivF : StageFns :=
  { ofRGB := fun _ h w => ⟨h, w, fun _ _ _ => 0⟩
    composite := fun _ h w => ⟨h, w, fun _ _ _ => 0⟩
    convert := fun _ h w => ⟨h, w, fun _ _ _ => 0⟩
    resize := fun img => img
    slic := fun _ _ _ => ⟨1, 1, fun _ _ => 0⟩
    extract := fun _ _ => [((0 : ℚ), (0 : ℚ), (0 : ℚ))]
    assign := fun _ _ _ => 0
    cc := rowCC }

/-- Parameters with `max_regions_per_color = 0` (and the splitter
enabled). -/
def pM0 : PParams :=
  { cacheKey := 0, nSegments := 10, compactness := 10, nLayers := 1,
    distThr := DistThreshold.auto, maxRegions := 0, edgeMode := EdgeMode.hard }

/-- Parameters with `layer_count = 0`. -/
def pK0 : PParams :=
  { cacheKey := 0, nSegments := 10, compactness := 10, nLayers := 0,
    distThr := DistThreshold.off, maxRegions := 3, edgeMode := EdgeMode.hard }

/-- Counterexample to C4 as stated: a concrete invocation with
`max_regions_per_color = 0` (< 1) is not rejected — every stage runs,
including the splitter, and the pipeline returns a successful result
instead of failing fast. -/
theorem no_validation_counterexample :
    pM0.maxRegions < 1 ∧
    (∃ r, (processImage trivF emptyCache (RawImage.decoded PMode.rgb 1024 1024 1) pM0).1
        = Except.ok r) ∧
    (processImage trivF emptyCache (RawImage.decoded PMode.rgb 1024 1024 1) pM0).2.1
      = [Stage.load, Stage.slic, Stage.extract, Stage.kmeans, Stage.split,
         Stage.layers, Stage.stats] := by
  exact ⟨by decide, ⟨_, rfl⟩, rfl⟩

theorem process_image_no_fail_fast_witness :
    (∃ r, (processImage trivF emptyCache (RawImage.decoded PMode.rgb 4 4 0) pM0).1
        = Except.ok r) ∧
    (∃ e, (processImage trivF emptyCache (RawImage.decoded PMode.rgb 4 4 0) pK0).1
        = Except.error e) ∧
    (processImage trivF emptyCache (RawImage.decoded PMode.rgb 4 4 0) pK0).2.1
      = [Stage.load, Stage.slic, Stage.extract, Stage.kmeans] :=
  process_image_no_fail_fast trivF emptyCache PMode.rgb 4 4 0 pM0 pK0
    rfl rfl rfl (by decide) (by decide) rfl

/-! ### C8: cache reuse -/

/-- C8: starting from a fresh (empty) cache, a second invocation with
the same cache key and partitioning parameters but a possibly different
layer count reuses the cached regions and features: the feature array
consumed by run 2 is equal — bit-identical, both runs being
deterministic — to the one computed and consumed by run 1, the cache
hit actually fires, and run 2 returns exactly what the same invocation
returns with the cache disabled (run fresh), so each run clusters with
its own layer count. -/
theorem cache_reuse (F : StageFns) (mode : PMode) (h0 w0 data : Nat)
    (p1 p2 : PParams)
    (hkey : p2.cacheKey = p1.cacheKey) (hseg : p2.nSegments = p1.nSegments)
    (hcomp : p2.compactness = p1.compactness) :
    canReuse (processImage F emptyCache (RawImage.decoded mode h0 w0 data) p1).2.2
        p2.cacheKey p2.nSegments p2.compactness = true ∧
    featuresUsed F (processImage F emptyCache (RawImage.decoded mode h0 w0 data) p1).2.2
        (RawImage.decoded mode h0 w0 data) p2
      = featuresUsed F emptyCache (RawImage.decoded mode h0 w0 data) p1 ∧
    (processImage F
        (processImage F emptyCache (RawImage.decoded mode h0 w0 data) p1).2.2
        (RawImage.decoded mode h0 w0 data) p2).1
      = (processImage F emptyCache (RawImage.decoded mode h0 w0 data) p2).1 := by
  have hfresh := superpixelStage_fresh F emptyCache (loadImg F mode h0 w0 data)
    p1.cacheKey p1.nSegments p1.compactness (canReuse_empty _ _ _)
  have hc1 : (processImage F emptyCache (RawImage.decoded mode h0 w0 data) p1).2.2
      = ⟨some p1.cacheKey, some p1.nSegments, some p1.compactness,
         some (F.slic (loadImg F mode h0 w0 data) p1.nSegments p1.compactness),
         some (F.extract (loadImg F mode h0 w0 data)
           (F.slic (loadImg F mode h0 w0 data) p1.nSegments p1.compactness))⟩ := by
    rw [processImage_cacheOut, hfresh]
  have hreuse : canReuse
      (processImage F emptyCache (RawImage.decoded mode h0 w0 data) p1).2.2
      p2.cacheKey p2.nSegments p2.compactness = true := by
    rw [hc1, hkey, hseg, hcomp]
    exact canReuse_filled _ _ _ _ _
  have hhit := superpixelStage_hit F
    (processImage F emptyCache (RawImage.decoded mode h0 w0 data) p1).2.2
    (loadImg F mode h0 w0 data) p2.cacheKey p2.nSegments p2.compactness
    (F.slic (loadImg F mode h0 w0 data) p1.nSegments p1.compactness)
    (F.extract (loadImg F mode h0 w0 data)
      (F.slic (loadImg F mode h0 w0 data) p1.nSegments p1.compactness))
    hreuse (by rw [hc1]) (by rw [hc1])
  have hfresh2 := superpixelStage_fresh F emptyCache (loadImg F mode h0 w0 data)
    p2.cacheKey p2.nSegments p2.compactness (canReuse_empty _ _ _)
  refine ⟨hreuse, ?_, ?_⟩
  · show (superpixelStage F
        (processImage F emptyCache (RawImage.decoded mode h0 w0 data) p1).2.2
        (loadImg F mode h0 w0 data) p2.cacheKey p2.nSegments p2.compactness).2.1
      = (superpixelStage F emptyCache (loadImg F mode h0 w0 data)
          p1.cacheKey p1.nSegments p1.compactness).2.1
    rw [hhit, hfresh]
  · rw [processImage_fst, processImage_fst, hhit, hfresh2, hseg, hcomp]

/-- First-run parameters for the cache witness. -/
def pA : PParams :=
  { cacheKey := 7, nSegments := 10, compactness := 10, nLayers := 1,
    distThr := DistThreshold.off, maxRegions := 3, edgeMode := EdgeMode.hard }

/-- Second-run parameters: same key and partitioning parameters,
different layer count. -/
def pB : PParams :=
  { cacheKey := 7, nSegments := 10, compactness := 10, nLayers := 2,
    distThr := DistThreshold.off, maxRegions := 3, edgeMode := EdgeMode.hard }

theorem cache_reuse_witness :
    pB.cacheKey = pA.cacheKey ∧ pB.nSegments = pA.nSegments ∧
    pB.compactness = pA.compactness ∧
    (canReuse (processImage trivF emptyCache
          (RawImage.decoded PMode.rgb 1024 1024 0) pA).2.2
        pB.cacheKey pB.nSegments pB.compactness = true ∧
     featuresUsed trivF (processImage trivF emptyCache
          (RawImage.decoded PMode.rgb 1024 1024 0) pA).2.2
        (RawImage.decoded PMode.rgb 1024 1024 0) pB
       = featuresUsed trivF emptyCache (RawImage.decoded PMode.rgb 1024 1024 0) pA ∧
     (processImage trivF (processImage trivF emptyCache
          (RawImage.decoded PMode.rgb 1024 1024 0) pA).2.2
        (RawImage.decoded PMode.rgb 1024 1024 0) pB).1
       = (processImage trivF emptyCache (RawImage.decoded PMode.rgb 1024 1024 0) pB).1) :=
  ⟨rfl, rfl, rfl, cache_reuse trivF PMode.rgb 1024 1024 0 pA pB rfl rfl rfl⟩

/-! ### C9: input error handling -/

/-- C9 (amended): an input image that cannot be decoded fails the whole
invocation immediately — a single error, an empty stage trace (no
computation ran) and an untouched cache, so no partial result.  An
image with the wrong channel count is *not* rejected: non-RGB modes are
converted to RGB and processed normally (see the counterexample), and a
zero-size image is not checked for either — like any size other than
1024×1024 it is simply passed to the resize step. -/
theorem undecodable_fails_immediately (F : StageFns) (cache : Cache) (p : PParams) :
    processImage F cache RawImage.undecodable p
      = (Except.error "cannot identify image file", [], cache) := rfl

/-- Counterexample to C9's wrong-channel-count clause: a decodable
grayscale (single-channel) image is not failed — `process_image`
converts it to RGB and the invocation completes successfully, running
every stage. -/
theorem grayscale_image_accepted :
    (∃ r, (processImage trivF emptyCache (RawImage.decoded PMode.gray 1024 1024 0) pA).1
        = Except.ok r) ∧
    (processImage trivF emptyCache (RawImage.decoded PMode.gray 1024 1024 0) pA).2.1
      = [Stage.load, Stage.slic, Stage.extract, Stage.kmeans, Stage.layers,
         Stage.stats] := by
  exact ⟨⟨_, rfl⟩, rfl⟩

end IconProc
